import Mathlib

set_option maxHeartbeats 1000000
set_option maxRecDepth 4000

namespace StringAlign

/- Shallow embedding of src/digi_leap/pylib/string_align.cpp.
   A std::u32string is modeled as a list of Char (Unicode scalar values).
   The C++ float scores are modeled as exact rational numbers; every
   concrete score appearing in the claims is a small integer, on which
   float arithmetic is exact. -/

/-- The character used to represent gaps in alignment output (line 33 of the source). -/
def gap_char : Char := '⋄'

/-- Model of std::u32string: a sequence of Unicode scalar values. -/
abbrev U32Str := List Char

/-- Remove every gap marker from a string. -/
def stripGaps (s : U32Str) : U32Str := s.filter (fun ch => ch ≠ gap_char)

/-- Total list indexing with a fallback value, modeling the C++ operator[]
accesses (which are always in bounds where the engine performs them).  A local
definition keeps generated equations stable. -/
def nthD {α : Type} : List α → Nat → α → α
  | [], _, d => d
  | a :: _, 0, _ => a
  | _ :: t, n + 1, d => nthD t n d

/-- Inner loop of levenshtein, lines 67-73 of the source.  The state walks the
rolling row: leftNew is the cell dist[c] (note the source never writes dist[0],
so at the first column this is the untouched seed value), diagv is prev_dist,
and oldRest holds the not-yet-overwritten values dist[c+1], dist[c+2], ... -/
def levRowGo (x : Char) : List Char → Nat → Nat → List Nat → List Nat
  | [], _, _, _ => []
  | _ :: _, _, _, [] => []
  | y :: ys, leftNew, diagv, oldUp :: oldRest =>
    let d := min (min (diagv + (if x = y then 0 else 1)) (leftNew + 1)) (oldUp + 1)
    d :: levRowGo x ys d oldUp oldRest

/-- One sweep of the outer loop body, lines 65-74: prev_dist starts at r,
dist[0] is left unchanged. -/
def levRow (x : Char) (str2 : List Char) (r : Nat) (dist : List Nat) : List Nat :=
  nthD dist 0 0 :: levRowGo x str2 (nthD dist 0 0) r dist.tail

/-- The outer loop over the characters of str1, lines 65-74. -/
def levLoop (str2 : List Char) : List Char → Nat → List Nat → List Nat
  | [], _, dist => dist
  | x :: xs, r, dist => levLoop str2 xs (r + 1) (levRow x str2 r dist)

/-- The levenshtein function of lines 55-76, as implemented: the rolling row is
seeded with 0..len2 and the last cell is returned. -/
def levenshtein (str1 str2 : U32Str) : Nat :=
  if str1.length = 0 then str2.length
  else if str2.length = 0 then str1.length
  else nthD (levLoop str2 str1 0 (List.range (str2.length + 1))) str2.length 0

/-- The pair enumeration of lines 94-99: r ascending outer, c from r+1 ascending
inner, each tuple (distance, r, c). -/
def levPairs (strings : List U32Str) : List (Nat × Nat × Nat) :=
  (List.range strings.length).flatMap (fun r =>
    ((List.range strings.length).drop (r + 1)).map (fun c =>
      (levenshtein (nthD strings r []) (nthD strings c []), r, c)))

/-- Stable insertion with the comparator of lines 101-104 (strictly smaller
distance moves earlier; an element is placed after every element whose distance
is not larger).  Folding this over the enumeration computes exactly the result
of std::stable_sort with that comparator. -/
def stableInsert (t : Nat × Nat × Nat) : List (Nat × Nat × Nat) → List (Nat × Nat × Nat)
  | [] => [t]
  | u :: us => if t.1 < u.1 then t :: u :: us else u :: stableInsert t us

/-- Model of std::stable_sort with the comparator comparing first components. -/
def stableSortByDist (l : List (Nat × Nat × Nat)) : List (Nat × Nat × Nat) :=
  l.foldl (fun acc t => stableInsert t acc) []

/-- levenshtein_all, lines 88-107. -/
def levenshtein_all (strings : List U32Str) : List (Nat × Nat × Nat) :=
  stableSortByDist (levPairs strings)

/-- The C++ function throws std::invalid_argument in both failure paths (lines
159 and 223); nonTermination marks the unreachable case in which the traceback
loop of lines 250-276 would fail to reach the terminal cell. -/
inductive CppError where
  | invalidArgument (msg : String)
  | nonTermination
deriving DecidableEq, Repr

/-- The single quote character, code point 39. -/
def quoteChar : Char := Char.ofNat 39

/-- The message assembled at lines 219-222. -/
def missingMsg (key : U32Str) : String :=
  "Either of " ++ String.singleton quoteChar ++ String.mk key ++ String.singleton quoteChar ++
    " these characters are missing from the substitution matrix."

/-- The message of line 159. -/
def emptyMsg : String := "You must enter at least one string."

/-- TraceDir of line 110. -/
inductive TraceDir where
  | none
  | diag
  | up
  | left
deriving DecidableEq, Repr

/-- Trace of lines 111-117. -/
structure Trace where
  val : ℚ
  up : ℚ
  left : ℚ
  dir : TraceDir
deriving DecidableEq, Repr

/-- The zero-initialized Trace of line 116. -/
def Trace.init : Trace := ⟨0, 0, 0, TraceDir.none⟩

/-- Exact value of std::numeric_limits<float>::lowest(), line 201. -/
def floatLowest : ℚ := -((2 ^ 24 - 1) * 2 ^ 104)

/-- Lines 208-224: canonicalize the two characters by an ascending swap, build
the two-character key, query the matrix, and fail with the message naming the
key when it is absent. -/
def lookupScore (weight : List (U32Str × ℚ)) (results_char strings_char : Char) :
    Except CppError ℚ :=
  let a := if results_char > strings_char then strings_char else results_char
  let b := if results_char > strings_char then results_char else strings_char
  match List.lookup [a, b] weight with
  | Option.some value => Except.ok value
  | Option.none => Except.error (CppError.invalidArgument (missingMsg [a, b]))

/-- The ascending two-character key for an unordered pair, written directly
with min and max; used to state canonicalization facts about lookupScore. -/
def canonKey (x y : Char) : U32Str := [min x y, max x y]

/-- The k loop of lines 201-226: rows showing the gap marker are skipped, and
the best substitution score is accumulated starting from floatLowest. -/
def bestSub (weight : List (U32Str × ℚ)) (strings_char : Char) :
    List Char → ℚ → Except CppError ℚ
  | [], diagonal => Except.ok diagonal
  | results_char :: rest, diagonal =>
    if results_char = gap_char then bestSub weight strings_char rest diagonal
    else
      match lookupScore weight results_char strings_char with
      | Except.error e => Except.error e
      | Except.ok value =>
        bestSub weight strings_char rest (if value > diagonal then value else diagonal)

/-- One interior cell, lines 194-236: colChars is the alignment column the new
character is scored against; cell_up, cell_left and cell_diag are the three
already-filled neighbor cells. -/
def mkCell (weight : List (U32Str × ℚ)) (gap skew : ℚ) (colChars : List Char)
    (strings_char : Char) (cell_up cell_left cell_diag : Trace) : Except CppError Trace :=
  let u := max (cell_up.up + skew) (cell_up.val + gap)
  let l := max (cell_left.left + skew) (cell_left.val + gap)
  match bestSub weight strings_char colChars floatLowest with
  | Except.error e => Except.error e
  | Except.ok d0 =>
    let diagonal := d0 + cell_diag.val
    let v := max diagonal (max u l)
    Except.ok ⟨v, u, l,
      if v = diagonal then TraceDir.diag else if v = u then TraceDir.up else TraceDir.left⟩

/-- Row 0 of the grid, lines 183-190: cell (0,0) keeps its zero default and
cell (0,c) holds gap + (c-1) * skew with direction left. -/
def topRow (gap skew : ℚ) (cols : Nat) : List Trace :=
  Trace.init ::
    (List.range cols).map (fun c : Nat =>
      ⟨gap + (c : ℚ) * skew, gap + (c : ℚ) * skew, gap + (c : ℚ) * skew, TraceDir.left⟩)

/-- The inner column loop of lines 193-237 for one row: walks the remaining
characters of the new string together with the cells of the previous row.
The previous row always has one more cell than the remaining characters, so
the second branch is unreachable in align_all. -/
def fillRowGo (weight : List (U32Str × ℚ)) (gap skew : ℚ) (colChars : List Char) :
    List Char → Trace → List Trace → Trace → Except CppError (List Trace)
  | [], _, _, _ => Except.ok []
  | _ :: _, _, [], _ => Except.ok []
  | sc :: srest, diagCell, upCell :: upRest, leftCell =>
    match mkCell weight gap skew colChars sc upCell leftCell diagCell with
    | Except.error e => Except.error e
    | Except.ok cell =>
      match fillRowGo weight gap skew colChars srest upCell upRest cell with
      | Except.error e => Except.error e
      | Except.ok out => Except.ok (cell :: out)

/-- The column 0 boundary cell of lines 174-181 for grid row r1 + 1: it holds
gap + r1 * skew in all three scores with direction up. -/
def boundaryCell (gap skew : ℚ) (r1 : Nat) : Trace :=
  ⟨gap + (r1 : ℚ) * skew, gap + (r1 : ℚ) * skew, gap + (r1 : ℚ) * skew, TraceDir.up⟩

/-- One full grid row r = r1 + 1: the boundary cell followed by the interior
cells of the column loop. -/
def fillRow (weight : List (U32Str × ℚ)) (gap skew : ℚ) (colChars : List Char)
    (sChars : List Char) (r1 : Nat) (prevRow : List Trace) : Except CppError (List Trace) :=
  match fillRowGo weight gap skew colChars sChars (nthD prevRow 0 Trace.init) prevRow.tail
      (boundaryCell gap skew r1) with
  | Except.error e => Except.error e
  | Except.ok out => Except.ok (boundaryCell gap skew r1 :: out)

/-- The alignment column facing grid row r1 + 1: character r1 of every current
row (line 203). -/
def colChars (results : List U32Str) (r1 : Nat) : List Char :=
  results.map (fun row => nthD row r1 gap_char)

/-- The outer row loop of lines 192-238, producing grid rows r1+1 .. r1+count
given the already-filled previous row. -/
def buildRowsGo (weight : List (U32Str × ℚ)) (gap skew : ℚ) (results : List U32Str)
    (sChars : List Char) : Nat → Nat → List Trace → Except CppError (List (List Trace))
  | _, 0, _ => Except.ok []
  | r1, Nat.succ n, prevRow =>
    match fillRow weight gap skew (colChars results r1) sChars r1 prevRow with
    | Except.error e => Except.error e
    | Except.ok newRow =>
      match buildRowsGo weight gap skew results sChars (r1 + 1) n newRow with
      | Except.error e => Except.error e
      | Except.ok rs => Except.ok (newRow :: rs)

/-- The whole (rows+1) x (cols+1) trace matrix of lines 168-238. -/
def buildGrid (weight : List (U32Str × ℚ)) (gap skew : ℚ) (results : List U32Str)
    (sChars : List Char) : Except CppError (List (List Trace)) :=
  let rows := (nthD results 0 []).length
  match buildRowsGo weight gap skew results sChars 0 rows (topRow gap skew sChars.length) with
  | Except.error e => Except.error e
  | Except.ok rs => Except.ok (topRow gap skew sChars.length :: rs)

/-- Reading trace[r][c]. -/
def gridAt (g : List (List Trace)) (r c : Nat) : Trace := nthD (nthD g r []) c Trace.init

/-- Lines 257-259 and 264-266: every current row contributes its character at
index r1 to its accumulator. -/
def appendCol (results : List U32Str) (accRows : List U32Str) (r1 : Nat) : List U32Str :=
  List.zipWith (fun row acc => acc ++ [nthD row r1 gap_char]) results accRows

/-- The traceback loop of lines 250-276, with explicit fuel standing for the
iteration count of the while(true) loop; align_all runs it with fuel
rows + cols + 1, which the termination theorem shows is always enough. -/
def traceGo (g : List (List Trace)) (results : List U32Str) (sChars : List Char) :
    Nat → Nat → Nat → List U32Str → U32Str → Option (List U32Str × U32Str)
  | 0, _, _, _, _ => Option.none
  | Nat.succ fuel, r, c, accRows, accStr =>
    match (gridAt g r c).dir with
    | TraceDir.none => Option.some (accRows, accStr)
    | TraceDir.diag =>
      traceGo g results sChars fuel (r - 1) (c - 1) (appendCol results accRows (r - 1))
        (accStr ++ [nthD sChars (c - 1) gap_char])
    | TraceDir.up =>
      traceGo g results sChars fuel (r - 1) c (appendCol results accRows (r - 1))
        (accStr ++ [gap_char])
    | TraceDir.left =>
      traceGo g results sChars fuel r (c - 1) (accRows.map (fun acc => acc ++ [gap_char]))
        (accStr ++ [nthD sChars (c - 1) gap_char])

/-- One round of the outer loop of lines 167-284: build the grid for the next
string, trace back from (rows, cols), append the rebuilt new string, and
reverse every accumulated row. -/
def foldRound (weight : List (U32Str × ℚ)) (gap skew : ℚ) (results : List U32Str)
    (sChars : U32Str) : Except CppError (List U32Str) :=
  let rows := (nthD results 0 []).length
  let cols := sChars.length
  match buildGrid weight gap skew results sChars with
  | Except.error e => Except.error e
  | Except.ok g =>
    match traceGo g results sChars (rows + cols + 1) rows cols (results.map (fun _ => [])) [] with
    | Option.none => Except.error CppError.nonTermination
    | Option.some (fRows, fStr) => Except.ok ((fRows ++ [fStr]).map List.reverse)

/-- Folding each remaining string into the running alignment, line 167. -/
def alignFold (weight : List (U32Str × ℚ)) (gap skew : ℚ) :
    List U32Str → List U32Str → Except CppError (List U32Str)
  | results, [] => Except.ok results
  | results, s :: rest =>
    match foldRound weight gap skew results s with
    | Except.error e => Except.error e
    | Except.ok results2 => alignFold weight gap skew results2 rest

/-- align_all, lines 151-287. -/
def align_all (strings : List U32Str) (weight : List (U32Str × ℚ)) (gap skew : ℚ) :
    Except CppError (List U32Str) :=
  match strings with
  | [] => Except.error (CppError.invalidArgument emptyMsg)
  | s0 :: rest => alignFold weight gap skew [s0] rest

/-- Decidable equality for results of align_all, used to settle the concrete
scenarios by computation. -/
instance {ε α : Type} [DecidableEq ε] [DecidableEq α] : DecidableEq (Except ε α) :=
  fun a b =>
    match a, b with
    | Except.ok x, Except.ok y =>
      if h : x = y then Decidable.isTrue (by rw [h])
      else Decidable.isFalse (by simp [h])
    | Except.ok _, Except.error _ => Decidable.isFalse (by simp)
    | Except.error _, Except.ok _ => Decidable.isFalse (by simp)
    | Except.error x, Except.error y =>
      if h : x = y then Decidable.isTrue (by rw [h])
      else Decidable.isFalse (by simp [h])

/-- All rows of an alignment have the length of the first row. -/
def EqLen (L : List U32Str) : Prop := ∀ row ∈ L, row.length = (nthD L 0 []).length

/-- Every column of an alignment shows at least one character that is not the
gap marker. -/
def ColsCovered (L : List U32Str) : Prop :=
  ∀ j < (nthD L 0 []).length, ∃ k < L.length, nthD (nthD L k []) j gap_char ≠ gap_char

/-- The direction facts the traceback relies on, for a grid of rows + 1 by
cols + 1 cells: the terminal cell is the only one directed none on the
traceback paths, column 0 points up, row 0 points left, and interior cells
point diagonally, up or left. -/
def GoodGrid (g : List (List Trace)) (rows cols : Nat) : Prop :=
  (gridAt g 0 0).dir = TraceDir.none ∧
  (∀ c, 1 ≤ c → c ≤ cols → (gridAt g 0 c).dir = TraceDir.left) ∧
  (∀ r, 1 ≤ r → r ≤ rows → (gridAt g r 0).dir = TraceDir.up) ∧
  (∀ r c, 1 ≤ r → r ≤ rows → 1 ≤ c → c ≤ cols → (gridAt g r c).dir ≠ TraceDir.none)

/-- The substitution matrix of the concrete scenario in the spec. -/
def exWeight : List (U32Str × ℚ) :=
  [(['A', 'A'], 0), (['C', 'C'], 0), (['G', 'G'], 0),
   (['A', 'C'], -1), (['A', 'G'], -1), (['C', 'G'], -1)]

/-- The input strings of the concrete scenario in the spec. -/
def exStrings : List U32Str := [['A', 'C'], ['A', 'G', 'C']]

/-- A one-entry matrix for the small grid fixture below. -/
def c3Weight : List (U32Str × ℚ) := [(['A', 'A'], 0)]

/-- The full trace grid align_all builds when folding the string A into the
alignment consisting of the single row A, with gap open -2 and gap extend -1:
a 2 by 2 grid whose interior cell scores 0 via the diagonal. -/
def c3g : List (List Trace) :=
  [[Trace.init, ⟨-2, -2, -2, TraceDir.left⟩],
   [⟨-2, -2, -2, TraceDir.up⟩, ⟨0, -3, -3, TraceDir.diag⟩]]

/- ------------------------------------------------------------------ -/
/- Theorems.                                                           -/
/- ------------------------------------------------------------------ -/

@[simp] theorem nthD_nil {α : Type} (n : Nat) (d : α) : nthD [] n d = d := rfl

@[simp] theorem nthD_cons_zero {α : Type} (a : α) (t : List α) (d : α) :
    nthD (a :: t) 0 d = a := rfl

@[simp] theorem nthD_cons_succ {α : Type} (a : α) (t : List α) (n : Nat) (d : α) :
    nthD (a :: t) (n + 1) d = nthD t n d := rfl

theorem nthD_eq_getElem {α : Type} :
    ∀ (l : List α) (n : Nat) (d : α) (h : n < l.length), nthD l n d = l[n] := by
  intro l
  induction l with
  | nil => intro n d h; simp at h
  | cons a t ih =>
    intro n d h
    cases n with
    | zero => rfl
    | succ m =>
      rw [nthD_cons_succ, List.getElem_cons_succ]
      exact ih m d (by simpa using h)

theorem nthD_mem {α : Type} (l : List α) (n : Nat) (d : α) (h : n < l.length) :
    nthD l n d ∈ l := by
  rw [nthD_eq_getElem l n d h]
  exact List.getElem_mem h

/-- Claim C2: align_all on the input list AC, AGC with the substitution matrix
of the spec scenario, gap open -2 and gap extend -1 returns exactly the rows
A gap C and A G C, both of length 3.  Settled by computation. -/
theorem align_all_concrete_scenario :
    align_all exStrings exWeight (-2) (-1) = Except.ok [['A', '⋄', 'C'], ['A', 'G', 'C']] ∧
    (['A', '⋄', 'C'] : U32Str).length = 3 ∧ (['A', 'G', 'C'] : U32Str).length = 3 := by
  refine ⟨?_, rfl, rfl⟩
  with_unfolding_all decide

/-- Claim C7, code bug: the levenshtein of the source is not symmetric.  The
rolling row never writes dist[0], which should hold the row number r; the
untouched seed value 0 lets the algorithm delete a prefix of str1 for free.
On the pair aaa / a the function returns 1 one way and 2 the other, while the
true Levenshtein distance is 2 both ways. -/
theorem levenshtein_asymmetric_on_aaa_a :
    levenshtein ['a', 'a', 'a'] ['a'] = 1 ∧ levenshtein ['a'] ['a', 'a', 'a'] = 2 := by
  decide

/-- Claim C8, code bug: for the disjoint pair aa / x the source returns 1
although max(len(aa), len(x)) = 2, for the same missing dist[0] update as in
the symmetry bug.  The specific fixture abc / xyz of the spec does evaluate
to 3, but the general property fails. -/
theorem levenshtein_disjoint_pair_counterexample :
    levenshtein ['a', 'a'] ['x'] = 1 ∧
    max (['a', 'a'] : U32Str).length (['x'] : U32Str).length = 2 ∧
    levenshtein ['a', 'b', 'c'] ['x', 'y', 'z'] = 3 := by
  decide

/- Lemmas for claim C5: length, sortedness and stability of the model of
std::stable_sort used by levenshtein_all. -/

theorem stableInsert_length (t : Nat × Nat × Nat) (l : List (Nat × Nat × Nat)) :
    (stableInsert t l).length = l.length + 1 := by
  induction l with
  | nil => rfl
  | cons u us ih =>
    by_cases h : t.1 < u.1 <;> simp [stableInsert, h, ih]

theorem stableSort_foldl_length (l acc : List (Nat × Nat × Nat)) :
    (l.foldl (fun acc t => stableInsert t acc) acc).length = acc.length + l.length := by
  induction l generalizing acc with
  | nil => simp
  | cons t ts ih => simp [List.foldl_cons, ih, stableInsert_length]; omega

theorem range_heights_sum (n : Nat) :
    ((List.range n).map (fun r => n - (r + 1))).sum * 2 = n * (n - 1) := by
  induction n with
  | zero => rfl
  | succ m ih =>
    rw [List.range_succ_eq_map, List.map_cons, List.map_map]
    have he : ((fun r => m + 1 - (r + 1)) ∘ (fun r => r + 1)) = (fun r => m - (r + 1)) := by
      funext r
      simp only [Function.comp_apply]
      omega
    rw [he, List.sum_cons]
    have h0 : m + 1 - (0 + 1) = m := by omega
    rw [h0, Nat.add_mul, ih]
    cases m with
    | zero => rfl
    | succ k =>
      have h1 : k + 1 - 1 = k := by omega
      rw [h1]
      ring

theorem levPairs_length (strings : List U32Str) :
    (levPairs strings).length = strings.length * (strings.length - 1) / 2 := by
  have h : (levPairs strings).length =
      ((List.range strings.length).map (fun r => strings.length - (r + 1))).sum := by
    rw [levPairs, List.length_flatMap]
    congr 1
    apply List.map_congr_left
    intro r hr
    simp [List.length_drop]
  have h2 := range_heights_sum strings.length
  omega

theorem mem_stableInsert (b t : Nat × Nat × Nat) (l : List (Nat × Nat × Nat)) :
    b ∈ stableInsert t l ↔ b = t ∨ b ∈ l := by
  induction l with
  | nil => simp [stableInsert]
  | cons u us ih =>
    by_cases h : t.1 < u.1
    · simp [stableInsert, h]
    · simp [stableInsert, h, ih]
      tauto

theorem stableInsert_pairwise (t : Nat × Nat × Nat) (l : List (Nat × Nat × Nat))
    (hl : l.Pairwise (fun a b => a.1 ≤ b.1)) :
    (stableInsert t l).Pairwise (fun a b => a.1 ≤ b.1) := by
  induction l with
  | nil => simp [stableInsert]
  | cons u us ih =>
    rcases List.pairwise_cons.mp hl with ⟨hu, hus⟩
    by_cases h : t.1 < u.1
    · simp only [stableInsert, if_pos h]
      refine List.pairwise_cons.mpr ⟨?_, hl⟩
      intro b hb
      rcases List.mem_cons.mp hb with hb | hb
      · exact hb ▸ Nat.le_of_lt h
      · exact Nat.le_trans (Nat.le_of_lt h) (hu b hb)
    · simp only [stableInsert, if_neg h]
      refine List.pairwise_cons.mpr ⟨?_, ih hus⟩
      intro b hb
      rcases (mem_stableInsert b t us).mp hb with hb | hb
      · subst hb
        omega
      · exact hu b hb

theorem stableSort_foldl_pairwise (l acc : List (Nat × Nat × Nat))
    (hacc : acc.Pairwise (fun a b => a.1 ≤ b.1)) :
    (l.foldl (fun acc t => stableInsert t acc) acc).Pairwise (fun a b => a.1 ≤ b.1) := by
  induction l generalizing acc with
  | nil => simpa using hacc
  | cons t ts ih => exact ih (stableInsert t acc) (stableInsert_pairwise t acc hacc)

theorem filter_stableInsert (d : Nat) (t : Nat × Nat × Nat) (l : List (Nat × Nat × Nat))
    (hl : l.Pairwise (fun a b => a.1 ≤ b.1)) :
    (stableInsert t l).filter (fun u => u.1 = d) =
      l.filter (fun u => u.1 = d) ++ if t.1 = d then [t] else [] := by
  induction l with
  | nil =>
    by_cases ht : t.1 = d <;> simp [stableInsert, ht]
  | cons u us ih =>
    rcases List.pairwise_cons.mp hl with ⟨hu, hus⟩
    by_cases h : t.1 < u.1
    · simp only [stableInsert, if_pos h]
      by_cases ht : t.1 = d
      · have hrest : (u :: us).filter (fun v => v.1 = d) = [] := by
          apply List.filter_eq_nil_iff.mpr
          intro v hv
          have hv2 : u.1 ≤ v.1 := by
            rcases List.mem_cons.mp hv with hvv | hvv
            · exact hvv ▸ Nat.le_refl _
            · exact hu v hvv
          simp only [decide_eq_true_eq]
          omega
        rw [List.filter_cons_of_pos (by simp [ht]), hrest]
        simp [ht]
      · rw [List.filter_cons_of_neg (by simp [ht])]
        simp [ht]
    · simp only [stableInsert, if_neg h]
      by_cases hud : u.1 = d <;> simp [List.filter_cons, hud, ih hus]

theorem filter_stableSort_foldl (d : Nat) (l acc : List (Nat × Nat × Nat))
    (hacc : acc.Pairwise (fun a b => a.1 ≤ b.1)) :
    (l.foldl (fun acc t => stableInsert t acc) acc).filter (fun u => u.1 = d) =
      acc.filter (fun u => u.1 = d) ++ l.filter (fun u => u.1 = d) := by
  induction l generalizing acc with
  | nil => simp
  | cons t ts ih =>
    rw [List.foldl_cons, ih (stableInsert t acc) (stableInsert_pairwise t acc hacc),
      filter_stableInsert d t acc hacc, List.filter_cons]
    by_cases ht : t.1 = d <;> simp [ht]

/-- Claim C5: levenshtein_all returns n(n-1)/2 tuples, in non-decreasing
distance order, and tuples of equal distance keep the row-major enumeration
order of levPairs (r ascending outer, c ascending inner): filtering the output
and the enumeration at any fixed distance gives identical lists. -/
theorem levenshtein_all_length_sorted_stable (strings : List U32Str) :
    (levenshtein_all strings).length = strings.length * (strings.length - 1) / 2 ∧
    (levenshtein_all strings).Pairwise (fun a b => a.1 ≤ b.1) ∧
    ∀ d, (levenshtein_all strings).filter (fun u => u.1 = d) =
      (levPairs strings).filter (fun u => u.1 = d) := by
  refine ⟨?_, ?_, ?_⟩
  · rw [levenshtein_all, stableSortByDist, stableSort_foldl_length]
    simpa using levPairs_length strings
  · exact stableSort_foldl_pairwise _ _ (by simp)
  · intro d
    rw [levenshtein_all, stableSortByDist, filter_stableSort_foldl d _ _ (by simp)]
    simp

/- Lemmas for claim C4: the canonical key of lookupScore. -/

theorem lookupScore_key (weight : List (U32Str × ℚ)) (a b : Char) :
    lookupScore weight a b =
      (match List.lookup (canonKey a b) weight with
       | Option.some value => Except.ok value
       | Option.none => Except.error (CppError.invalidArgument (missingMsg (canonKey a b)))) := by
  by_cases h : a > b
  · have h1 : min a b = b := min_eq_right (le_of_lt h)
    have h2 : max a b = a := max_eq_left (le_of_lt h)
    simp [lookupScore, canonKey, h, h1, h2]
  · have h1 : min a b = a := min_eq_left (not_lt.mp h)
    have h2 : max a b = b := max_eq_right (not_lt.mp h)
    simp [lookupScore, canonKey, h, h1, h2]

theorem canonKey_comm (a b : Char) : canonKey a b = canonKey b a := by
  simp [canonKey, min_comm, max_comm]

/-- Claim C4: the score lookup of align_all (the body of the k loop, lines
201-226) canonicalizes the pair into ascending order before querying the
matrix: the lookup is symmetric in the two characters, it succeeds exactly on
the ascending canonical key, and it reports that canonical key when absent.
A run of align_all in which only the reverse-ordered key exists fails with the
message naming the canonical key, confirming the symmetric lookup. -/
theorem lookupScore_canonical_and_symmetric (weight : List (U32Str × ℚ)) (a b : Char) :
    lookupScore weight a b = lookupScore weight b a ∧
    (∀ v, List.lookup (canonKey a b) weight = Option.some v →
      lookupScore weight a b = Except.ok v) ∧
    (List.lookup (canonKey a b) weight = Option.none →
      lookupScore weight a b =
        Except.error (CppError.invalidArgument (missingMsg (canonKey a b)))) ∧
    align_all [['B'], ['A']] [(['B', 'A'], 0)] (-2) (-1) =
      Except.error (CppError.invalidArgument (missingMsg ['A', 'B'])) := by
  refine ⟨?_, ?_, ?_, ?_⟩
  · rw [lookupScore_key, lookupScore_key, canonKey_comm]
  · intro v hv
    rw [lookupScore_key, hv]
  · intro hv
    rw [lookupScore_key, hv]
  · with_unfolding_all decide

/- Shape lemmas for the trace grid. -/

theorem topRow_length (gap skew : ℚ) (cols : Nat) :
    (topRow gap skew cols).length = cols + 1 := by
  rw [topRow, List.length_cons, List.length_map, List.length_range]

theorem fillRowGo_length (weight : List (U32Str × ℚ)) (gap skew : ℚ) (col : List Char) :
    ∀ (sRest : List Char) (diagC : Trace) (upRest : List Trace) (leftC : Trace)
      (out : List Trace),
      fillRowGo weight gap skew col sRest diagC upRest leftC = Except.ok out →
      out.length = min sRest.length upRest.length := by
  intro sRest
  induction sRest with
  | nil =>
    intro diagC upRest leftC out h
    simp [fillRowGo] at h
    subst h
    simp
  | cons sc srest ih =>
    intro diagC upRest leftC out h
    cases upRest with
    | nil =>
      simp [fillRowGo] at h
      subst h
      simp
    | cons upCell upRest2 =>
      rw [fillRowGo] at h
      cases hmk : mkCell weight gap skew col sc upCell leftC diagC with
      | error e => simp [hmk] at h
      | ok cell =>
        cases hgo : fillRowGo weight gap skew col srest upCell upRest2 cell with
        | error e => simp [hmk, hgo] at h
        | ok out2 =>
          simp only [hmk, hgo] at h
          have hlen := ih upCell upRest2 cell out2 hgo
          simp at h
          subst h
          simp [hlen]
          omega

theorem fillRow_length (weight : List (U32Str × ℚ)) (gap skew : ℚ) (col : List Char)
    (sChars : List Char) (r1 : Nat) (prevRow : List Trace) (row : List Trace)
    (hp : prevRow.length = sChars.length + 1)
    (h : fillRow weight gap skew col sChars r1 prevRow = Except.ok row) :
    row.length = sChars.length + 1 := by
  rw [fillRow] at h
  cases hgo : fillRowGo weight gap skew col sChars (nthD prevRow 0 Trace.init) prevRow.tail
      (boundaryCell gap skew r1) with
  | error e => simp [hgo] at h
  | ok out =>
    rw [hgo] at h
    have hlen := fillRowGo_length weight gap skew col sChars _ _ _ _ hgo
    have htail : prevRow.tail.length = sChars.length := by
      simp [List.length_tail, hp]
    simp at h
    subst h
    simp [hlen, htail]

theorem buildRowsGo_shape (weight : List (U32Str × ℚ)) (gap skew : ℚ)
    (results : List U32Str) (sChars : List Char) :
    ∀ (count r1 : Nat) (prevRow : List Trace) (rs : List (List Trace)),
      prevRow.length = sChars.length + 1 →
      buildRowsGo weight gap skew results sChars r1 count prevRow = Except.ok rs →
      rs.length = count ∧ ∀ row ∈ rs, row.length = sChars.length + 1 := by
  intro count
  induction count with
  | zero =>
    intro r1 prevRow rs hp h
    simp [buildRowsGo] at h
    subst h
    simp
  | succ n ih =>
    intro r1 prevRow rs hp h
    rw [buildRowsGo] at h
    cases hfr : fillRow weight gap skew (colChars results r1) sChars r1 prevRow with
    | error e => simp [hfr] at h
    | ok newRow =>
      cases hgo : buildRowsGo weight gap skew results sChars (r1 + 1) n newRow with
      | error e => simp [hfr, hgo] at h
      | ok rs2 =>
        simp only [hfr, hgo] at h
        have hnr := fillRow_length weight gap skew _ _ _ _ _ hp hfr
        have hsh := ih (r1 + 1) newRow rs2 hnr hgo
        simp at h
        subst h
        refine ⟨by simp [hsh.1], ?_⟩
        intro row hrow
        rcases List.mem_cons.mp hrow with hrow | hrow
        · exact hrow ▸ hnr
        · exact hsh.2 row hrow

theorem buildGrid_shape (weight : List (U32Str × ℚ)) (gap skew : ℚ)
    (results : List U32Str) (sChars : List Char) (g : List (List Trace))
    (h : buildGrid weight gap skew results sChars = Except.ok g) :
    g.length = (nthD results 0 []).length + 1 ∧ ∀ row ∈ g, row.length = sChars.length + 1 := by
  rw [buildGrid] at h
  cases hgo : buildRowsGo weight gap skew results sChars 0 (nthD results 0 []).length
      (topRow gap skew sChars.length) with
  | error e => simp [hgo] at h
  | ok rs =>
    simp only [hgo] at h
    have hsh := buildRowsGo_shape weight gap skew results sChars _ _ _ _
      (topRow_length gap skew sChars.length) hgo
    simp at h
    subst h
    refine ⟨by simp [hsh.1], ?_⟩
    intro row hrow
    rcases List.mem_cons.mp hrow with hrow | hrow
    · exact hrow ▸ topRow_length gap skew sChars.length
    · exact hsh.2 row hrow

/- Cell level lemmas: how each grid cell is computed from its neighbors. -/

theorem mkCell_fields (weight : List (U32Str × ℚ)) (gap skew : ℚ) (col : List Char)
    (sc : Char) (cu cl cd t : Trace) (d0 : ℚ)
    (h : mkCell weight gap skew col sc cu cl cd = Except.ok t)
    (hbs : bestSub weight sc col floatLowest = Except.ok d0) :
    t.up = max (cu.up + skew) (cu.val + gap) ∧
    t.left = max (cl.left + skew) (cl.val + gap) ∧
    t.val = max (d0 + cd.val) (max t.up t.left) ∧
    t.dir = (if t.val = d0 + cd.val then TraceDir.diag
      else if t.val = t.up then TraceDir.up else TraceDir.left) := by
  rw [mkCell, hbs] at h
  simp at h
  subst h
  simp

theorem mkCell_ok_bestSub (weight : List (U32Str × ℚ)) (gap skew : ℚ) (col : List Char)
    (sc : Char) (cu cl cd t : Trace)
    (h : mkCell weight gap skew col sc cu cl cd = Except.ok t) :
    ∃ d0, bestSub weight sc col floatLowest = Except.ok d0 := by
  rw [mkCell] at h
  cases hbs : bestSub weight sc col floatLowest with
  | error e => simp [hbs] at h
  | ok d0 => exact ⟨d0, rfl⟩

theorem mkCell_dir_ne_none (weight : List (U32Str × ℚ)) (gap skew : ℚ) (col : List Char)
    (sc : Char) (cu cl cd t : Trace)
    (h : mkCell weight gap skew col sc cu cl cd = Except.ok t) :
    t.dir ≠ TraceDir.none := by
  rcases mkCell_ok_bestSub weight gap skew col sc cu cl cd t h with ⟨d0, hbs⟩
  rcases mkCell_fields weight gap skew col sc cu cl cd t d0 h hbs with ⟨-, -, -, hdir⟩
  rw [hdir]
  by_cases h1 : t.val = d0 + cd.val
  · rw [if_pos h1]
    simp
  · rw [if_neg h1]
    by_cases h2 : t.val = t.up
    · rw [if_pos h2]
      simp
    · rw [if_neg h2]
      simp

theorem fillRowGo_nthD (weight : List (U32Str × ℚ)) (gap skew : ℚ) (col : List Char) :
    ∀ (sRest : List Char) (diagC : Trace) (upRest : List Trace) (leftC : Trace)
      (out : List Trace),
      fillRowGo weight gap skew col sRest diagC upRest leftC = Except.ok out →
      ∀ j, j < out.length →
        mkCell weight gap skew col (nthD sRest j gap_char)
          (nthD upRest j Trace.init) (nthD (leftC :: out) j Trace.init)
          (nthD (diagC :: upRest) j Trace.init) = Except.ok (nthD out j Trace.init) := by
  intro sRest
  induction sRest with
  | nil =>
    intro diagC upRest leftC out h j hj
    simp [fillRowGo] at h
    subst h
    simp at hj
  | cons sc srest ih =>
    intro diagC upRest leftC out h j hj
    cases upRest with
    | nil =>
      simp [fillRowGo] at h
      subst h
      simp at hj
    | cons upCell upRest2 =>
      rw [fillRowGo] at h
      cases hmk : mkCell weight gap skew col sc upCell leftC diagC with
      | error e => simp [hmk] at h
      | ok cell =>
        cases hgo : fillRowGo weight gap skew col srest upCell upRest2 cell with
        | error e => simp [hmk, hgo] at h
        | ok out2 =>
          simp only [hmk, hgo] at h
          simp at h
          subst h
          cases j with
          | zero => simpa using hmk
          | succ jj =>
            have hjj : jj < out2.length := by simpa using hj
            simpa using ih upCell upRest2 cell out2 hgo jj hjj

theorem fillRow_nthD_zero (weight : List (U32Str × ℚ)) (gap skew : ℚ) (col : List Char)
    (sChars : List Char) (r1 : Nat) (prevRow : List Trace) (row : List Trace)
    (h : fillRow weight gap skew col sChars r1 prevRow = Except.ok row) :
    nthD row 0 Trace.init = boundaryCell gap skew r1 := by
  rw [fillRow] at h
  cases hgo : fillRowGo weight gap skew col sChars (nthD prevRow 0 Trace.init) prevRow.tail
      (boundaryCell gap skew r1) with
  | error e => simp [hgo] at h
  | ok out =>
    rw [hgo] at h
    simp at h
    subst h
    simp

theorem fillRow_nthD (weight : List (U32Str × ℚ)) (gap skew : ℚ) (col : List Char)
    (sChars : List Char) (r1 : Nat) (prevRow : List Trace) (row : List Trace)
    (hp : prevRow.length = sChars.length + 1)
    (h : fillRow weight gap skew col sChars r1 prevRow = Except.ok row) :
    ∀ c, 1 ≤ c → c ≤ sChars.length →
      mkCell weight gap skew col (nthD sChars (c - 1) gap_char)
        (nthD prevRow c Trace.init) (nthD row (c - 1) Trace.init)
        (nthD prevRow (c - 1) Trace.init) = Except.ok (nthD row c Trace.init) := by
  intro c hc1 hc2
  obtain ⟨j, rfl⟩ : ∃ j, c = j + 1 := ⟨c - 1, (Nat.succ_pred_eq_of_pos hc1).symm⟩
  cases prevRow with
  | nil => simp at hp
  | cons p0 pt =>
    rw [fillRow] at h
    simp only [nthD_cons_zero, List.tail_cons] at h
    cases hgo : fillRowGo weight gap skew col sChars p0 pt (boundaryCell gap skew r1) with
    | error e => simp [hgo] at h
    | ok out =>
      rw [hgo] at h
      simp at h
      subst h
      have hlen : out.length = sChars.length := by
        have := fillRowGo_length weight gap skew col sChars _ _ _ _ hgo
        simp at hp
        simp [this, hp]
      have hj : j < out.length := by omega
      have := fillRowGo_nthD weight gap skew col sChars _ _ _ _ hgo j hj
      simpa using this

/- Row level lemmas: each grid row comes from fillRow on the previous row. -/

theorem buildRowsGo_chain (weight : List (U32Str × ℚ)) (gap skew : ℚ)
    (results : List U32Str) (sChars : List Char) :
    ∀ (count r1 : Nat) (prevRow : List Trace) (rs : List (List Trace)),
      buildRowsGo weight gap skew results sChars r1 count prevRow = Except.ok rs →
      ∀ i, i < count →
        fillRow weight gap skew (colChars results (r1 + i)) sChars (r1 + i)
          (nthD (prevRow :: rs) i []) = Except.ok (nthD rs i []) := by
  intro count
  induction count with
  | zero => intro r1 prevRow rs h i hi; simp at hi
  | succ n ih =>
    intro r1 prevRow rs h i hi
    rw [buildRowsGo] at h
    cases hfr : fillRow weight gap skew (colChars results r1) sChars r1 prevRow with
    | error e => simp [hfr] at h
    | ok newRow =>
      cases hgo : buildRowsGo weight gap skew results sChars (r1 + 1) n newRow with
      | error e => simp [hfr, hgo] at h
      | ok rs2 =>
        simp only [hfr, hgo] at h
        simp at h
        subst h
        cases i with
        | zero => simpa using hfr
        | succ ii =>
          have hii : ii < n := by omega
          have := ih (r1 + 1) newRow rs2 hgo ii hii
          have harith : r1 + 1 + ii = r1 + (ii + 1) := by omega
          rw [harith] at this
          simpa using this

theorem buildGrid_fillRow (weight : List (U32Str × ℚ)) (gap skew : ℚ)
    (results : List U32Str) (sChars : List Char) (g : List (List Trace))
    (h : buildGrid weight gap skew results sChars = Except.ok g) :
    ∀ r, 1 ≤ r → r ≤ (nthD results 0 []).length →
      fillRow weight gap skew (colChars results (r - 1)) sChars (r - 1)
        (nthD g (r - 1) []) = Except.ok (nthD g r []) := by
  intro r hr1 hr2
  obtain ⟨rr, rfl⟩ : ∃ rr, r = rr + 1 := ⟨r - 1, (Nat.succ_pred_eq_of_pos hr1).symm⟩
  rw [buildGrid] at h
  cases hgo : buildRowsGo weight gap skew results sChars 0 (nthD results 0 []).length
      (topRow gap skew sChars.length) with
  | error e => simp [hgo] at h
  | ok rs =>
    simp only [hgo] at h
    simp at h
    subst h
    have := buildRowsGo_chain weight gap skew results sChars _ 0 _ _ hgo rr (by omega)
    simpa using this

theorem buildGrid_interior (weight : List (U32Str × ℚ)) (gap skew : ℚ)
    (results : List U32Str) (sChars : List Char) (g : List (List Trace))
    (h : buildGrid weight gap skew results sChars = Except.ok g) :
    ∀ r c, 1 ≤ r → r ≤ (nthD results 0 []).length → 1 ≤ c → c ≤ sChars.length →
      mkCell weight gap skew (colChars results (r - 1)) (nthD sChars (c - 1) gap_char)
        (gridAt g (r - 1) c) (gridAt g r (c - 1)) (gridAt g (r - 1) (c - 1))
        = Except.ok (gridAt g r c) := by
  intro r c hr1 hr2 hc1 hc2
  have hfr := buildGrid_fillRow weight gap skew results sChars g h r hr1 hr2
  have hshape := buildGrid_shape weight gap skew results sChars g h
  have hprevlen : (nthD g (r - 1) []).length = sChars.length + 1 := by
    apply hshape.2
    apply nthD_mem
    omega
  have := fillRow_nthD weight gap skew (colChars results (r - 1)) sChars (r - 1)
    (nthD g (r - 1) []) (nthD g r []) hprevlen hfr c hc1 hc2
  simpa [gridAt] using this

/- Boundary direction lemmas. -/

theorem buildGrid_top (weight : List (U32Str × ℚ)) (gap skew : ℚ)
    (results : List U32Str) (sChars : List Char) (g : List (List Trace))
    (h : buildGrid weight gap skew results sChars = Except.ok g) :
    nthD g 0 [] = topRow gap skew sChars.length := by
  rw [buildGrid] at h
  cases hgo : buildRowsGo weight gap skew results sChars 0 (nthD results 0 []).length
      (topRow gap skew sChars.length) with
  | error e => simp [hgo] at h
  | ok rs =>
    simp only [hgo] at h
    simp at h
    subst h
    simp

theorem gridAt_zero_zero (weight : List (U32Str × ℚ)) (gap skew : ℚ)
    (results : List U32Str) (sChars : List Char) (g : List (List Trace))
    (h : buildGrid weight gap skew results sChars = Except.ok g) :
    gridAt g 0 0 = Trace.init := by
  rw [gridAt, buildGrid_top weight gap skew results sChars g h, topRow]
  simp

theorem gridAt_row0 (weight : List (U32Str × ℚ)) (gap skew : ℚ)
    (results : List U32Str) (sChars : List Char) (g : List (List Trace))
    (h : buildGrid weight gap skew results sChars = Except.ok g) :
    ∀ c, 1 ≤ c → c ≤ sChars.length → (gridAt g 0 c).dir = TraceDir.left := by
  intro c hc1 hc2
  obtain ⟨j, rfl⟩ : ∃ j, c = j + 1 := ⟨c - 1, (Nat.succ_pred_eq_of_pos hc1).symm⟩
  rw [gridAt, buildGrid_top weight gap skew results sChars g h, topRow]
  rw [nthD_cons_succ]
  have hj : j < ((List.range sChars.length).map (fun c : Nat =>
      (⟨gap + (c : ℚ) * skew, gap + (c : ℚ) * skew, gap + (c : ℚ) * skew,
        TraceDir.left⟩ : Trace))).length := by
    simp
    omega
  rw [nthD_eq_getElem _ j Trace.init hj]
  simp

theorem gridAt_col0 (weight : List (U32Str × ℚ)) (gap skew : ℚ)
    (results : List U32Str) (sChars : List Char) (g : List (List Trace))
    (h : buildGrid weight gap skew results sChars = Except.ok g) :
    ∀ r, 1 ≤ r → r ≤ (nthD results 0 []).length → (gridAt g r 0).dir = TraceDir.up := by
  intro r hr1 hr2
  have hfr := buildGrid_fillRow weight gap skew results sChars g h r hr1 hr2
  have := fillRow_nthD_zero weight gap skew (colChars results (r - 1)) sChars (r - 1)
    (nthD g (r - 1) []) (nthD g r []) hfr
  rw [gridAt, this]
  rfl

theorem buildGrid_good (weight : List (U32Str × ℚ)) (gap skew : ℚ)
    (results : List U32Str) (sChars : List Char) (g : List (List Trace))
    (h : buildGrid weight gap skew results sChars = Except.ok g) :
    GoodGrid g (nthD results 0 []).length sChars.length := by
  refine ⟨?_, ?_, ?_, ?_⟩
  · rw [gridAt_zero_zero weight gap skew results sChars g h]
    rfl
  · exact gridAt_row0 weight gap skew results sChars g h
  · intro r hr1 hr2
    rw [gridAt_col0 weight gap skew results sChars g h r hr1 hr2]
  · intro r c hr1 hr2 hc1 hc2
    exact mkCell_dir_ne_none weight gap skew _ _ _ _ _ _
      (buildGrid_interior weight gap skew results sChars g h r c hr1 hr2 hc1 hc2)

/- Small list facts used by the traceback lemmas. -/

theorem nthD_append_left {α : Type} :
    ∀ (a b : List α) (k : Nat) (d : α), k < a.length → nthD (a ++ b) k d = nthD a k d := by
  intro a
  induction a with
  | nil => intro b k d h; simp at h
  | cons x t ih =>
    intro b k d h
    cases k with
    | zero => rfl
    | succ m =>
      simp only [List.cons_append, nthD_cons_succ]
      exact ih b m d (by simpa using h)

theorem nthD_snoc_len {α : Type} :
    ∀ (a : List α) (x d : α), nthD (a ++ [x]) a.length d = x := by
  intro a
  induction a with
  | nil => intro x d; rfl
  | cons y t ih => intro x d; simpa using ih x d

theorem nthD_map_bounded {α β : Type} (f : α → β) (l : List α) (k : Nat) (d : β) (d2 : α)
    (h : k < l.length) : nthD (l.map f) k d = f (nthD l k d2) := by
  rw [nthD_eq_getElem _ k d (by simpa using h), nthD_eq_getElem l k d2 h, List.getElem_map]

theorem nthD_zipWith {α β γ : Type} (f : α → β → γ) :
    ∀ (as : List α) (bs : List β) (k : Nat) (d : γ) (da : α) (db : β),
      k < as.length → k < bs.length →
      nthD (List.zipWith f as bs) k d = f (nthD as k da) (nthD bs k db) := by
  intro as
  induction as with
  | nil => intro bs k d da db ha hb; simp at ha
  | cons a at2 ih =>
    intro bs k d da db ha hb
    cases bs with
    | nil => simp at hb
    | cons b bt =>
      cases k with
      | zero => rfl
      | succ m =>
        simp only [List.zipWith_cons_cons, nthD_cons_succ]
        exact ih bt m d da db (by simpa using ha) (by simpa using hb)

theorem take_succ_nthD {α : Type} (l : List α) (n : Nat) (d : α) (h : n < l.length) :
    l.take (n + 1) = l.take n ++ [nthD l n d] := by
  rw [List.take_succ, nthD_eq_getElem l n d h, List.getElem?_eq_getElem h]
  rfl

theorem stripGaps_append (a b : U32Str) : stripGaps (a ++ b) = stripGaps a ++ stripGaps b := by
  simp [stripGaps]

theorem stripGaps_snoc_reverse (l : U32Str) (x : Char) :
    stripGaps (l ++ [x]).reverse = stripGaps [x] ++ stripGaps l.reverse := by
  rw [List.reverse_append]
  exact stripGaps_append [x] l.reverse

theorem stripGaps_gap_single : stripGaps [gap_char] = [] := by
  simp [stripGaps]

theorem appendCol_length (results accR : List U32Str) (r1 : Nat) :
    (appendCol results accR r1).length = min results.length accR.length := by
  simp [appendCol]

theorem appendCol_nthD (results accR : List U32Str) (r1 k : Nat)
    (hk : k < results.length) (hk2 : k < accR.length) :
    nthD (appendCol results accR r1) k [] =
      nthD accR k [] ++ [nthD (nthD results k []) r1 gap_char] := by
  rw [appendCol, nthD_zipWith _ results accR k [] [] [] hk hk2]

theorem nthD_map_const_nil (results : List U32Str) (k : Nat) :
    nthD (results.map (fun _ => ([] : U32Str))) k [] = [] := by
  induction results generalizing k with
  | nil => simp
  | cons a t ih =>
    cases k with
    | zero => rfl
    | succ m => simpa using ih m

/- The traceback loop lemmas. -/

theorem traceGo_ok (g : List (List Trace)) (results : List U32Str) (sChars : List Char)
    (rows cols : Nat) (hg : GoodGrid g rows cols) :
    ∀ (fuel r c : Nat) (accR : List U32Str) (accS : U32Str),
      r ≤ rows → c ≤ cols → r + c + 1 ≤ fuel →
      ∃ fR fS, traceGo g results sChars fuel r c accR accS = Option.some (fR, fS) := by
  intro fuel
  induction fuel with
  | zero => intro r c accR accS hr hc hf; omega
  | succ f ih =>
    intro r c accR accS hr hc hf
    rcases hg with ⟨h00, h0c, hr0, hint⟩
    rw [traceGo]
    by_cases hrz : r = 0
    · by_cases hcz : c = 0
      · subst hrz; subst hcz
        rw [h00]
        exact ⟨accR, accS, rfl⟩
      · subst hrz
        have hd := h0c c (by omega) hc
        rw [hd]
        exact ih 0 (c - 1) _ _ (by omega) (by omega) (by omega)
    · by_cases hcz : c = 0
      · subst hcz
        have hd := hr0 r (by omega) hr
        rw [hd]
        exact ih (r - 1) 0 _ _ (by omega) (by omega) (by omega)
      · have hd := hint r c (by omega) hr (by omega) hc
        cases hdir : (gridAt g r c).dir with
        | none => exact absurd hdir hd
        | diag => exact ih (r - 1) (c - 1) _ _ (by omega) (by omega) (by omega)
        | up => exact ih (r - 1) c _ _ (by omega) (by omega) (by omega)
        | left => exact ih r (c - 1) _ _ (by omega) (by omega) (by omega)

theorem traceGo_len (g : List (List Trace)) (results : List U32Str) (sChars : List Char) :
    ∀ (fuel r c : Nat) (accR fR : List U32Str) (accS fS : U32Str),
      traceGo g results sChars fuel r c accR accS = Option.some (fR, fS) →
      accR.length = results.length →
      fR.length = results.length ∧
      ∀ k, k < results.length →
        (nthD fR k []).length + accS.length = (nthD accR k []).length + fS.length := by
  intro fuel
  induction fuel with
  | zero => intro r c accR fR accS fS h ha; simp [traceGo] at h
  | succ f ih =>
    intro r c accR fR accS fS h ha
    rw [traceGo] at h
    cases hdir : (gridAt g r c).dir with
    | none =>
      rw [hdir] at h
      simp at h
      obtain ⟨h1, h2⟩ := h
      subst h1
      subst h2
      exact ⟨ha, fun k hk => by omega⟩
    | diag =>
      rw [hdir] at h
      have ha2 : (appendCol results accR (r - 1)).length = results.length := by
        rw [appendCol_length]
        omega
      obtain ⟨hlen, hk⟩ := ih (r - 1) (c - 1) _ _ _ _ h ha2
      refine ⟨hlen, fun k hkk => ?_⟩
      have hthis := hk k hkk
      rw [appendCol_nthD results accR (r - 1) k hkk (by omega)] at hthis
      simp at hthis ⊢
      omega
    | up =>
      rw [hdir] at h
      have ha2 : (appendCol results accR (r - 1)).length = results.length := by
        rw [appendCol_length]
        omega
      obtain ⟨hlen, hk⟩ := ih (r - 1) c _ _ _ _ h ha2
      refine ⟨hlen, fun k hkk => ?_⟩
      have hthis := hk k hkk
      rw [appendCol_nthD results accR (r - 1) k hkk (by omega)] at hthis
      simp at hthis ⊢
      omega
    | left =>
      rw [hdir] at h
      have ha2 : (accR.map (fun acc => acc ++ [gap_char])).length = results.length := by
        simp [ha]
      obtain ⟨hlen, hk⟩ := ih r (c - 1) _ _ _ _ h ha2
      refine ⟨hlen, fun k hkk => ?_⟩
      have hthis := hk k hkk
      rw [nthD_map_bounded _ accR k [] [] (by omega)] at hthis
      simp at hthis ⊢
      omega

theorem traceGo_strip (g : List (List Trace)) (results : List U32Str) (sChars : List Char)
    (rows : Nat) (hg : GoodGrid g rows sChars.length)
    (hrows : ∀ k, k < results.length → (nthD results k []).length = rows) :
    ∀ (fuel r c : Nat) (accR fR : List U32Str) (accS fS : U32Str),
      traceGo g results sChars fuel r c accR accS = Option.some (fR, fS) →
      r ≤ rows → c ≤ sChars.length → accR.length = results.length →
      (∀ k, k < results.length →
        stripGaps (nthD fR k []).reverse =
          stripGaps ((nthD results k []).take r) ++ stripGaps (nthD accR k []).reverse) ∧
      stripGaps fS.reverse = stripGaps (sChars.take c) ++ stripGaps accS.reverse := by
  obtain ⟨h00, h0c, hr0, hint⟩ := hg
  intro fuel
  induction fuel with
  | zero => intro r c accR fR accS fS h hr hc ha; simp [traceGo] at h
  | succ f ih =>
    intro r c accR fR accS fS h hr hc ha
    rw [traceGo] at h
    by_cases hrz : r = 0
    · by_cases hcz : c = 0
      · subst hrz
        subst hcz
        rw [h00] at h
        simp at h
        obtain ⟨h1, h2⟩ := h
        subst h1
        subst h2
        constructor
        · intro k hk
          simp [stripGaps]
        · simp [stripGaps]
      · obtain ⟨p, rfl⟩ : ∃ p, c = p + 1 := ⟨c - 1, (Nat.succ_pred_eq_of_pos (by omega)).symm⟩
        subst hrz
        rw [h0c (p + 1) (by omega) hc] at h
        simp only [Nat.add_sub_cancel] at h
        have ha2 : (accR.map (fun acc => acc ++ [gap_char])).length = results.length := by
          simp [ha]
        obtain ⟨hks, hfs⟩ := ih 0 p _ _ _ _ h (by omega) (by omega) ha2
        constructor
        · intro k hk
          have hthis := hks k hk
          rw [nthD_map_bounded _ accR k [] [] (by omega), stripGaps_snoc_reverse,
            stripGaps_gap_single] at hthis
          simpa using hthis
        · rw [stripGaps_snoc_reverse] at hfs
          rw [take_succ_nthD sChars p gap_char (by omega), stripGaps_append]
          rw [hfs]
          simp [List.append_assoc]
    · by_cases hcz : c = 0
      · obtain ⟨q, rfl⟩ : ∃ q, r = q + 1 := ⟨r - 1, (Nat.succ_pred_eq_of_pos (by omega)).symm⟩
        subst hcz
        rw [hr0 (q + 1) (by omega) hr] at h
        simp only [Nat.add_sub_cancel] at h
        have ha2 : (appendCol results accR q).length = results.length := by
          rw [appendCol_length]
          omega
        obtain ⟨hks, hfs⟩ := ih q 0 _ _ _ _ h (by omega) (by omega) ha2
        constructor
        · intro k hk
          have hthis := hks k hk
          rw [appendCol_nthD results accR q k hk (by omega), stripGaps_snoc_reverse] at hthis
          rw [take_succ_nthD (nthD results k []) q gap_char (by rw [hrows k hk]; omega),
            stripGaps_append]
          rw [hthis]
          simp [List.append_assoc]
        · rw [stripGaps_snoc_reverse, stripGaps_gap_single] at hfs
          simpa using hfs
      · obtain ⟨q, rfl⟩ : ∃ q, r = q + 1 := ⟨r - 1, (Nat.succ_pred_eq_of_pos (by omega)).symm⟩
        obtain ⟨p, rfl⟩ : ∃ p, c = p + 1 := ⟨c - 1, (Nat.succ_pred_eq_of_pos (by omega)).symm⟩
        cases hdir : (gridAt g (q + 1) (p + 1)).dir with
        | none => exact absurd hdir (hint (q + 1) (p + 1) (by omega) hr (by omega) hc)
        | diag =>
          rw [hdir] at h
          simp only [Nat.add_sub_cancel] at h
          have ha2 : (appendCol results accR q).length = results.length := by
            rw [appendCol_length]
            omega
          obtain ⟨hks, hfs⟩ := ih q p _ _ _ _ h (by omega) (by omega) ha2
          constructor
          · intro k hk
            have hthis := hks k hk
            rw [appendCol_nthD results accR q k hk (by omega), stripGaps_snoc_reverse] at hthis
            rw [take_succ_nthD (nthD results k []) q gap_char (by rw [hrows k hk]; omega),
              stripGaps_append]
            rw [hthis]
            simp [List.append_assoc]
          · rw [stripGaps_snoc_reverse] at hfs
            rw [take_succ_nthD sChars p gap_char (by omega), stripGaps_append]
            rw [hfs]
            simp [List.append_assoc]
        | up =>
          rw [hdir] at h
          simp only [Nat.add_sub_cancel] at h
          have ha2 : (appendCol results accR q).length = results.length := by
            rw [appendCol_length]
            omega
          obtain ⟨hks, hfs⟩ := ih q (p + 1) _ _ _ _ h (by omega) (by omega) ha2
          constructor
          · intro k hk
            have hthis := hks k hk
            rw [appendCol_nthD results accR q k hk (by omega), stripGaps_snoc_reverse] at hthis
            rw [take_succ_nthD (nthD results k []) q gap_char (by rw [hrows k hk]; omega),
              stripGaps_append]
            rw [hthis]
            simp [List.append_assoc]
          · rw [stripGaps_snoc_reverse, stripGaps_gap_single] at hfs
            simpa using hfs
        | left =>
          rw [hdir] at h
          simp only [Nat.add_sub_cancel] at h
          have ha2 : (accR.map (fun acc => acc ++ [gap_char])).length = results.length := by
            simp [ha]
          obtain ⟨hks, hfs⟩ := ih (q + 1) p _ _ _ _ h (by omega) (by omega) ha2
          constructor
          · intro k hk
            have hthis := hks k hk
            rw [nthD_map_bounded _ accR k [] [] (by omega), stripGaps_snoc_reverse,
              stripGaps_gap_single] at hthis
            simpa using hthis
          · rw [stripGaps_snoc_reverse] at hfs
            rw [take_succ_nthD sChars p gap_char (by omega), stripGaps_append]
            rw [hfs]
            simp [List.append_assoc]

theorem traceGo_cols (g : List (List Trace)) (results : List U32Str) (sChars : List Char)
    (rows : Nat) (hg : GoodGrid g rows sChars.length)
    (hcols : ∀ r1, r1 < rows → ∃ k, k < results.length ∧
      nthD (nthD results k []) r1 gap_char ≠ gap_char)
    (hs : gap_char ∉ sChars) :
    ∀ (fuel r c : Nat) (accR fR : List U32Str) (accS fS : U32Str),
      traceGo g results sChars fuel r c accR accS = Option.some (fR, fS) →
      r ≤ rows → c ≤ sChars.length → accR.length = results.length →
      (∀ k, k < results.length → (nthD accR k []).length = accS.length) →
      (∀ j, j < accS.length →
        (∃ k, k < results.length ∧ nthD (nthD accR k []) j gap_char ≠ gap_char) ∨
          nthD accS j gap_char ≠ gap_char) →
      (∀ k, k < results.length → (nthD fR k []).length = fS.length) ∧
      (∀ j, j < fS.length →
        (∃ k, k < results.length ∧ nthD (nthD fR k []) j gap_char ≠ gap_char) ∨
          nthD fS j gap_char ≠ gap_char) := by
  obtain ⟨h00, h0c, hr0, hint⟩ := hg
  intro fuel
  induction fuel with
  | zero => intro r c accR fR accS fS h hr hc ha hlen hinv; simp [traceGo] at h
  | succ f ih =>
    intro r c accR fR accS fS h hr hc ha hlen hinv
    rw [traceGo] at h
    by_cases hrz : r = 0
    · by_cases hcz : c = 0
      · subst hrz
        subst hcz
        rw [h00] at h
        simp at h
        obtain ⟨h1, h2⟩ := h
        subst h1
        subst h2
        exact ⟨hlen, hinv⟩
      · obtain ⟨p, rfl⟩ : ∃ p, c = p + 1 := ⟨c - 1, (Nat.succ_pred_eq_of_pos (by omega)).symm⟩
        subst hrz
        rw [h0c (p + 1) (by omega) hc] at h
        simp only [Nat.add_sub_cancel] at h
        have hch : nthD sChars p gap_char ≠ gap_char := by
          intro hcontra
          exact hs (hcontra ▸ nthD_mem sChars p gap_char (by omega))
        refine ih 0 p _ _ _ _ h (by omega) (by omega) (by simp [ha]) ?_ ?_
        · intro k hk
          rw [nthD_map_bounded _ accR k [] [] (by omega)]
          simp [hlen k hk]
        · intro j hj
          simp at hj
          by_cases hjold : j < accS.length
          · rcases hinv j hjold with ⟨k0, hk0, hne⟩ | hne
            · left
              refine ⟨k0, hk0, ?_⟩
              rw [nthD_map_bounded _ accR k0 [] [] (by omega),
                nthD_append_left _ _ j gap_char (by rw [hlen k0 hk0]; omega)]
              exact hne
            · right
              rw [nthD_append_left _ _ j gap_char hjold]
              exact hne
          · right
            have hjeq : j = accS.length := by omega
            subst hjeq
            rw [nthD_snoc_len]
            exact hch
    · by_cases hcz : c = 0
      · obtain ⟨q, rfl⟩ : ∃ q, r = q + 1 := ⟨r - 1, (Nat.succ_pred_eq_of_pos (by omega)).symm⟩
        subst hcz
        rw [hr0 (q + 1) (by omega) hr] at h
        simp only [Nat.add_sub_cancel] at h
        obtain ⟨k0, hk0, hne0⟩ := hcols q (by omega)
        refine ih q 0 _ _ _ _ h (by omega) (by omega) (by rw [appendCol_length]; omega) ?_ ?_
        · intro k hk
          rw [appendCol_nthD results accR q k hk (by omega)]
          simp [hlen k hk]
        · intro j hj
          simp at hj
          by_cases hjold : j < accS.length
          · rcases hinv j hjold with ⟨k1, hk1, hne⟩ | hne
            · left
              refine ⟨k1, hk1, ?_⟩
              rw [appendCol_nthD results accR q k1 hk1 (by omega),
                nthD_append_left _ _ j gap_char (by rw [hlen k1 hk1]; omega)]
              exact hne
            · right
              rw [nthD_append_left _ _ j gap_char hjold]
              exact hne
          · left
            have hjeq : j = accS.length := by omega
            subst hjeq
            refine ⟨k0, hk0, ?_⟩
            rw [appendCol_nthD results accR q k0 hk0 (by omega)]
            rw [show accS.length = (nthD accR k0 []).length from (hlen k0 hk0).symm,
              nthD_snoc_len]
            exact hne0
      · obtain ⟨q, rfl⟩ : ∃ q, r = q + 1 := ⟨r - 1, (Nat.succ_pred_eq_of_pos (by omega)).symm⟩
        obtain ⟨p, rfl⟩ : ∃ p, c = p + 1 := ⟨c - 1, (Nat.succ_pred_eq_of_pos (by omega)).symm⟩
        cases hdir : (gridAt g (q + 1) (p + 1)).dir with
        | none => exact absurd hdir (hint (q + 1) (p + 1) (by omega) hr (by omega) hc)
        | diag =>
          rw [hdir] at h
          simp only [Nat.add_sub_cancel] at h
          obtain ⟨k0, hk0, hne0⟩ := hcols q (by omega)
          refine ih q p _ _ _ _ h (by omega) (by omega) (by rw [appendCol_length]; omega) ?_ ?_
          · intro k hk
            rw [appendCol_nthD results accR q k hk (by omega)]
            simp [hlen k hk]
          · intro j hj
            simp at hj
            by_cases hjold : j < accS.length
            · rcases hinv j hjold with ⟨k1, hk1, hne⟩ | hne
              · left
                refine ⟨k1, hk1, ?_⟩
                rw [appendCol_nthD results accR q k1 hk1 (by omega),
                  nthD_append_left _ _ j gap_char (by rw [hlen k1 hk1]; omega)]
                exact hne
              · right
                rw [nthD_append_left _ _ j gap_char hjold]
                exact hne
            · left
              have hjeq : j = accS.length := by omega
              subst hjeq
              refine ⟨k0, hk0, ?_⟩
              rw [appendCol_nthD results accR q k0 hk0 (by omega)]
              rw [show accS.length = (nthD accR k0 []).length from (hlen k0 hk0).symm,
                nthD_snoc_len]
              exact hne0
        | up =>
          rw [hdir] at h
          simp only [Nat.add_sub_cancel] at h
          obtain ⟨k0, hk0, hne0⟩ := hcols q (by omega)
          refine ih q (p + 1) _ _ _ _ h (by omega) (by omega)
            (by rw [appendCol_length]; omega) ?_ ?_
          · intro k hk
            rw [appendCol_nthD results accR q k hk (by omega)]
            simp [hlen k hk]
          · intro j hj
            simp at hj
            by_cases hjold : j < accS.length
            · rcases hinv j hjold with ⟨k1, hk1, hne⟩ | hne
              · left
                refine ⟨k1, hk1, ?_⟩
                rw [appendCol_nthD results accR q k1 hk1 (by omega),
                  nthD_append_left _ _ j gap_char (by rw [hlen k1 hk1]; omega)]
                exact hne
              · right
                rw [nthD_append_left _ _ j gap_char hjold]
                exact hne
            · left
              have hjeq : j = accS.length := by omega
              subst hjeq
              refine ⟨k0, hk0, ?_⟩
              rw [appendCol_nthD results accR q k0 hk0 (by omega)]
              rw [show accS.length = (nthD accR k0 []).length from (hlen k0 hk0).symm,
                nthD_snoc_len]
              exact hne0
        | left =>
          rw [hdir] at h
          simp only [Nat.add_sub_cancel] at h
          have hch : nthD sChars p gap_char ≠ gap_char := by
            intro hcontra
            exact hs (hcontra ▸ nthD_mem sChars p gap_char (by omega))
          refine ih (q + 1) p _ _ _ _ h (by omega) (by omega) (by simp [ha]) ?_ ?_
          · intro k hk
            rw [nthD_map_bounded _ accR k [] [] (by omega)]
            simp [hlen k hk]
          · intro j hj
            simp at hj
            by_cases hjold : j < accS.length
            · rcases hinv j hjold with ⟨k1, hk1, hne⟩ | hne
              · left
                refine ⟨k1, hk1, ?_⟩
                rw [nthD_map_bounded _ accR k1 [] [] (by omega),
                  nthD_append_left _ _ j gap_char (by rw [hlen k1 hk1]; omega)]
                exact hne
              · right
                rw [nthD_append_left _ _ j gap_char hjold]
                exact hne
            · right
              have hjeq : j = accS.length := by omega
              subst hjeq
              rw [nthD_snoc_len]
              exact hch

/- More list facts for assembling the new alignment after traceback. -/

theorem nthD_reverse {α : Type} (l : List α) (j : Nat) (d : α) (h : j < l.length) :
    nthD l.reverse j d = nthD l (l.length - 1 - j) d := by
  rw [nthD_eq_getElem l.reverse j d (by simpa using h),
    nthD_eq_getElem l (l.length - 1 - j) d (by omega), List.getElem_reverse]

theorem list_eq_of_nthD {α : Type} :
    ∀ (l1 l2 : List α) (d : α), l1.length = l2.length →
      (∀ i, i < l1.length → nthD l1 i d = nthD l2 i d) → l1 = l2 := by
  intro l1
  induction l1 with
  | nil =>
    intro l2 d hl hp
    cases l2 with
    | nil => rfl
    | cons b t => simp at hl
  | cons a t ih =>
    intro l2 d hl hp
    cases l2 with
    | nil => simp at hl
    | cons b t2 =>
      have hab : a = b := hp 0 (by simp)
      have ht : t = t2 := by
        refine ih t2 d (by simpa using hl) ?_
        intro i hi
        have := hp (i + 1) (by simpa using hi)
        simpa using this
      rw [hab, ht]

theorem stripGaps_of_not_mem (s : U32Str) (h : gap_char ∉ s) : stripGaps s = s := by
  apply List.filter_eq_self.mpr
  intro c hc
  simp only [decide_eq_true_eq]
  intro hcontra
  exact h (hcontra ▸ hc)

/- One fold-in round. -/

theorem foldRound_parts (weight : List (U32Str × ℚ)) (gap skew : ℚ)
    (results : List U32Str) (sChars : U32Str) (results2 : List U32Str)
    (h : foldRound weight gap skew results sChars = Except.ok results2) :
    ∃ g fR fS, buildGrid weight gap skew results sChars = Except.ok g ∧
      traceGo g results sChars ((nthD results 0 []).length + sChars.length + 1)
        (nthD results 0 []).length sChars.length (results.map (fun _ => [])) [] =
        Option.some (fR, fS) ∧
      results2 = (fR ++ [fS]).map List.reverse := by
  simp only [foldRound] at h
  cases hbg : buildGrid weight gap skew results sChars with
  | error e => rw [hbg] at h; simp at h
  | ok g =>
    rw [hbg] at h
    have h2 : (match traceGo g results sChars ((nthD results 0 []).length + sChars.length + 1)
        (nthD results 0 []).length sChars.length (results.map (fun _ => [])) [] with
      | Option.none => Except.error CppError.nonTermination
      | Option.some (fRows, fStr) => Except.ok ((fRows ++ [fStr]).map List.reverse)) =
        Except.ok results2 := h
    cases htr : traceGo g results sChars ((nthD results 0 []).length + sChars.length + 1)
        (nthD results 0 []).length sChars.length (results.map (fun _ => [])) [] with
    | none => rw [htr] at h2; simp at h2
    | some pr =>
      obtain ⟨fR, fS⟩ := pr
      rw [htr] at h2
      have h3 : Except.ok ((fR ++ [fS]).map List.reverse) =
          (Except.ok results2 : Except CppError (List U32Str)) := h2
      simp at h3
      refine ⟨g, fR, fS, rfl, htr, ?_⟩
      rw [← h3]
      simp

theorem foldRound_shape (weight : List (U32Str × ℚ)) (gap skew : ℚ)
    (results : List U32Str) (sChars : U32Str) (results2 : List U32Str)
    (_hne : results ≠ []) (heq : EqLen results)
    (h : foldRound weight gap skew results sChars = Except.ok results2) :
    results2 ≠ [] ∧ EqLen results2 ∧ results2.length = results.length + 1 ∧
    results2.map stripGaps = results.map stripGaps ++ [stripGaps sChars] := by
  obtain ⟨g, fR, fS, hbg, htr, hres⟩ := foldRound_parts weight gap skew results sChars results2 h
  have hgood := buildGrid_good weight gap skew results sChars g hbg
  have hrows : ∀ k, k < results.length → (nthD results k []).length =
      (nthD results 0 []).length := by
    intro k hk
    exact heq (nthD results k []) (nthD_mem results k [] hk)
  have haccR : (results.map (fun _ => ([] : U32Str))).length = results.length := by simp
  obtain ⟨hfRlen, hklen⟩ := traceGo_len g results sChars _ _ _ _ _ _ _ htr haccR
  obtain ⟨hks, hfs⟩ := traceGo_strip g results sChars (nthD results 0 []).length hgood hrows
    _ _ _ _ _ _ _ htr (Nat.le_refl _) (Nat.le_refl _) haccR
  have hklen2 : ∀ k, k < results.length → (nthD fR k []).length = fS.length := by
    intro k hk
    have := hklen k hk
    rw [nthD_map_const_nil results k] at this
    simpa using this
  have hks2 : ∀ k, k < results.length →
      stripGaps (nthD fR k []).reverse = stripGaps (nthD results k []) := by
    intro k hk
    have := hks k hk
    rw [nthD_map_const_nil results k] at this
    rw [← hrows k hk, List.take_length] at this
    simpa [stripGaps] using this
  have hfs2 : stripGaps fS.reverse = stripGaps sChars := by
    rw [List.take_length] at hfs
    simpa [stripGaps] using hfs
  have hlen2 : results2.length = results.length + 1 := by
    rw [hres]
    simp [hfRlen]
  have hnth : ∀ i, i < results.length → nthD results2 i [] = (nthD fR i []).reverse := by
    intro i hi
    rw [hres]
    rw [nthD_map_bounded List.reverse (fR ++ [fS]) i [] [] (by simp; omega)]
    rw [nthD_append_left fR [fS] i [] (by omega)]
  have hnthlast : nthD results2 results.length [] = fS.reverse := by
    rw [hres]
    rw [nthD_map_bounded List.reverse (fR ++ [fS]) results.length [] [] (by simp; omega)]
    rw [← hfRlen, nthD_snoc_len]
  have hlenrow : ∀ i, i < results2.length → (nthD results2 i []).length = fS.length := by
    intro i hi
    by_cases hik : i < results.length
    · rw [hnth i hik]
      simp [hklen2 i hik]
    · have : i = results.length := by omega
      subst this
      rw [hnthlast]
      simp
  refine ⟨?_, ?_, hlen2, ?_⟩
  · intro hcontra
    rw [hcontra] at hlen2
    simp at hlen2
  · intro row hrow
    obtain ⟨i, hi, hrow2⟩ := List.getElem_of_mem hrow
    have h1 : row.length = fS.length := by
      rw [← hrow2, ← nthD_eq_getElem results2 i [] hi]
      exact hlenrow i hi
    have h2 : (nthD results2 0 []).length = fS.length := hlenrow 0 (by omega)
    rw [h1, h2]
  · apply list_eq_of_nthD _ _ ([] : U32Str)
    · simp [hlen2]
    · intro i hi
      simp only [List.length_map, hlen2] at hi
      rw [nthD_map_bounded stripGaps results2 i [] [] (by omega)]
      by_cases hik : i < results.length
      · rw [nthD_append_left _ _ i [] (by simpa using hik)]
        rw [nthD_map_bounded stripGaps results i [] [] hik]
        rw [hnth i hik]
        exact hks2 i hik
      · have hieq : i = results.length := by omega
        subst hieq
        rw [hnthlast]
        rw [show results.length = (results.map stripGaps).length from by simp, nthD_snoc_len]
        exact hfs2

theorem foldRound_cols (weight : List (U32Str × ℚ)) (gap skew : ℚ)
    (results : List U32Str) (sChars : U32Str) (results2 : List U32Str)
    (hne : results ≠ []) (heq : EqLen results) (hcv : ColsCovered results)
    (hs : gap_char ∉ sChars)
    (h : foldRound weight gap skew results sChars = Except.ok results2) :
    ColsCovered results2 := by
  obtain ⟨g, fR, fS, hbg, htr, hres⟩ := foldRound_parts weight gap skew results sChars results2 h
  have hgood := buildGrid_good weight gap skew results sChars g hbg
  have haccR : (results.map (fun _ => ([] : U32Str))).length = results.length := by simp
  obtain ⟨hfRlen, hklen⟩ := traceGo_len g results sChars _ _ _ _ _ _ _ htr haccR
  have hklen2 : ∀ k, k < results.length → (nthD fR k []).length = fS.length := by
    intro k hk
    have := hklen k hk
    rw [nthD_map_const_nil results k] at this
    simpa using this
  have hcols : ∀ r1, r1 < (nthD results 0 []).length →
      ∃ k, k < results.length ∧ nthD (nthD results k []) r1 gap_char ≠ gap_char := by
    intro r1 hr1
    obtain ⟨k, hk, hne2⟩ := hcv r1 hr1
    exact ⟨k, hk, hne2⟩
  obtain ⟨hflen, hfinv⟩ := traceGo_cols g results sChars (nthD results 0 []).length hgood
    hcols hs _ _ _ _ _ _ _ htr (Nat.le_refl _) (Nat.le_refl _) haccR
    (fun k hk => by rw [nthD_map_const_nil results k])
    (fun j hj => by simp at hj)
  have hnth : ∀ i, i < results.length → nthD results2 i [] = (nthD fR i []).reverse := by
    intro i hi
    rw [hres]
    rw [nthD_map_bounded List.reverse (fR ++ [fS]) i [] [] (by simp; omega)]
    rw [nthD_append_left fR [fS] i [] (by omega)]
  have hnthlast : nthD results2 results.length [] = fS.reverse := by
    rw [hres]
    rw [nthD_map_bounded List.reverse (fR ++ [fS]) results.length [] [] (by simp; omega)]
    rw [← hfRlen, nthD_snoc_len]
  have hhead : (nthD results2 0 []).length = fS.length := by
    have hzero : 0 < results.length := by
      cases results with
      | nil => exact absurd rfl hne
      | cons a t => simp
    rw [hnth 0 hzero]
    simp [hklen2 0 hzero]
  intro j hj
  rw [hhead] at hj
  have hj2 : fS.length - 1 - j < fS.length := by omega
  rcases hfinv (fS.length - 1 - j) hj2 with ⟨k0, hk0, hne2⟩ | hne2
  · refine ⟨k0, by rw [hres]; simp; omega, ?_⟩
    rw [hnth k0 hk0]
    rw [nthD_reverse (nthD fR k0 []) j gap_char (by rw [hklen2 k0 hk0]; omega)]
    rw [hklen2 k0 hk0]
    exact hne2
  · refine ⟨results.length, by rw [hres]; simp [hfRlen], ?_⟩
    rw [hnthlast]
    rw [nthD_reverse fS j gap_char (by omega)]
    exact hne2

/- Folding every remaining string into the running alignment. -/

theorem alignFold_shape (weight : List (U32Str × ℚ)) (gap skew : ℚ) :
    ∀ (rest : List U32Str) (results res : List U32Str),
      alignFold weight gap skew results rest = Except.ok res →
      results ≠ [] → EqLen results →
      res ≠ [] ∧ EqLen res ∧ res.length = results.length + rest.length ∧
      res.map stripGaps = (results ++ rest).map stripGaps := by
  intro rest
  induction rest with
  | nil =>
    intro results res h hne heq
    rw [alignFold] at h
    simp at h
    subst h
    exact ⟨hne, heq, by simp, by simp⟩
  | cons s rest2 ih =>
    intro results res h hne heq
    rw [alignFold] at h
    cases hfr : foldRound weight gap skew results s with
    | error e => rw [hfr] at h; simp at h
    | ok results2 =>
      rw [hfr] at h
      obtain ⟨hne2, heq2, hlen2, hmap2⟩ :=
        foldRound_shape weight gap skew results s results2 hne heq hfr
      obtain ⟨hne3, heq3, hlen3, hmap3⟩ := ih results2 res h hne2 heq2
      refine ⟨hne3, heq3, by rw [hlen3, hlen2]; simp; omega, ?_⟩
      rw [hmap3]
      simp only [List.map_append] at hmap2 ⊢
      rw [hmap2]
      simp

theorem alignFold_cols (weight : List (U32Str × ℚ)) (gap skew : ℚ) :
    ∀ (rest : List U32Str) (results res : List U32Str),
      alignFold weight gap skew results rest = Except.ok res →
      results ≠ [] → EqLen results → ColsCovered results →
      (∀ s ∈ rest, gap_char ∉ s) →
      ColsCovered res := by
  intro rest
  induction rest with
  | nil =>
    intro results res h hne heq hcv hfree
    rw [alignFold] at h
    simp at h
    subst h
    exact hcv
  | cons s rest2 ih =>
    intro results res h hne heq hcv hfree
    rw [alignFold] at h
    cases hfr : foldRound weight gap skew results s with
    | error e => rw [hfr] at h; simp at h
    | ok results2 =>
      rw [hfr] at h
      have hsfree : gap_char ∉ s := hfree s (by simp)
      obtain ⟨hne2, heq2, hlen2, hmap2⟩ :=
        foldRound_shape weight gap skew results s results2 hne heq hfr
      have hcv2 := foldRound_cols weight gap skew results s results2 hne heq hcv hsfree hfr
      exact ih results2 res h hne2 heq2 hcv2 (fun t ht => hfree t (by simp [ht]))

/- The error surface: every error align_all can raise is an invalid_argument
exception, and a missing substitution score names an absent canonical key. -/

theorem lookupScore_error (weight : List (U32Str × ℚ)) (a b : Char) (e : CppError)
    (h : lookupScore weight a b = Except.error e) :
    e = CppError.invalidArgument (missingMsg (canonKey a b)) ∧
    List.lookup (canonKey a b) weight = Option.none := by
  rw [lookupScore_key] at h
  cases hlk : List.lookup (canonKey a b) weight with
  | some v => rw [hlk] at h; simp at h
  | none =>
    rw [hlk] at h
    simp at h
    exact ⟨h.symm, rfl⟩

theorem bestSub_error (weight : List (U32Str × ℚ)) (sc : Char) :
    ∀ (col : List Char) (acc : ℚ) (e : CppError),
      bestSub weight sc col acc = Except.error e →
      ∃ x y, e = CppError.invalidArgument (missingMsg (canonKey x y)) ∧
        List.lookup (canonKey x y) weight = Option.none := by
  intro col
  induction col with
  | nil => intro acc e h; simp [bestSub] at h
  | cons ch rest ih =>
    intro acc e h
    rw [bestSub] at h
    by_cases hgap : ch = gap_char
    · rw [if_pos hgap] at h
      exact ih acc e h
    · rw [if_neg hgap] at h
      cases hls : lookupScore weight ch sc with
      | error e2 =>
        rw [hls] at h
        simp at h
        subst h
        obtain ⟨he, hlk⟩ := lookupScore_error weight ch sc e2 hls
        exact ⟨ch, sc, he, hlk⟩
      | ok v =>
        rw [hls] at h
        exact ih _ e h

theorem mkCell_error (weight : List (U32Str × ℚ)) (gap skew : ℚ) (col : List Char)
    (sc : Char) (cu cl cd : Trace) (e : CppError)
    (h : mkCell weight gap skew col sc cu cl cd = Except.error e) :
    ∃ x y, e = CppError.invalidArgument (missingMsg (canonKey x y)) ∧
      List.lookup (canonKey x y) weight = Option.none := by
  rw [mkCell] at h
  cases hbs : bestSub weight sc col floatLowest with
  | error e2 =>
    rw [hbs] at h
    simp at h
    subst h
    exact bestSub_error weight sc col floatLowest e2 hbs
  | ok d0 => rw [hbs] at h; simp at h

theorem fillRowGo_error (weight : List (U32Str × ℚ)) (gap skew : ℚ) (col : List Char) :
    ∀ (sRest : List Char) (diagC : Trace) (upRest : List Trace) (leftC : Trace) (e : CppError),
      fillRowGo weight gap skew col sRest diagC upRest leftC = Except.error e →
      ∃ x y, e = CppError.invalidArgument (missingMsg (canonKey x y)) ∧
        List.lookup (canonKey x y) weight = Option.none := by
  intro sRest
  induction sRest with
  | nil => intro diagC upRest leftC e h; simp [fillRowGo] at h
  | cons sc srest ih =>
    intro diagC upRest leftC e h
    cases upRest with
    | nil => simp [fillRowGo] at h
    | cons upCell upRest2 =>
      rw [fillRowGo] at h
      cases hmk : mkCell weight gap skew col sc upCell leftC diagC with
      | error e2 =>
        rw [hmk] at h
        simp at h
        subst h
        exact mkCell_error weight gap skew col sc upCell leftC diagC e2 hmk
      | ok cell =>
        rw [hmk] at h
        have h2 : (match fillRowGo weight gap skew col srest upCell upRest2 cell with
          | Except.error e => Except.error e
          | Except.ok out => Except.ok (cell :: out)) = Except.error e := h
        cases hgo : fillRowGo weight gap skew col srest upCell upRest2 cell with
        | error e2 =>
          rw [hgo] at h2
          simp at h2
          subst h2
          exact ih upCell upRest2 cell e2 hgo
        | ok out => rw [hgo] at h2; simp at h2

theorem fillRow_error (weight : List (U32Str × ℚ)) (gap skew : ℚ) (col : List Char)
    (sChars : List Char) (r1 : Nat) (prevRow : List Trace) (e : CppError)
    (h : fillRow weight gap skew col sChars r1 prevRow = Except.error e) :
    ∃ x y, e = CppError.invalidArgument (missingMsg (canonKey x y)) ∧
      List.lookup (canonKey x y) weight = Option.none := by
  rw [fillRow] at h
  cases hgo : fillRowGo weight gap skew col sChars (nthD prevRow 0 Trace.init) prevRow.tail
      (boundaryCell gap skew r1) with
  | error e2 =>
    rw [hgo] at h
    simp at h
    subst h
    exact fillRowGo_error weight gap skew col sChars _ _ _ e2 hgo
  | ok out => rw [hgo] at h; simp at h

theorem buildRowsGo_error (weight : List (U32Str × ℚ)) (gap skew : ℚ)
    (results : List U32Str) (sChars : List Char) :
    ∀ (count r1 : Nat) (prevRow : List Trace) (e : CppError),
      buildRowsGo weight gap skew results sChars r1 count prevRow = Except.error e →
      ∃ x y, e = CppError.invalidArgument (missingMsg (canonKey x y)) ∧
        List.lookup (canonKey x y) weight = Option.none := by
  intro count
  induction count with
  | zero => intro r1 prevRow e h; simp [buildRowsGo] at h
  | succ n ih =>
    intro r1 prevRow e h
    rw [buildRowsGo] at h
    cases hfr : fillRow weight gap skew (colChars results r1) sChars r1 prevRow with
    | error e2 =>
      rw [hfr] at h
      simp at h
      subst h
      exact fillRow_error weight gap skew _ _ _ _ e2 hfr
    | ok newRow =>
      rw [hfr] at h
      have h2 : (match buildRowsGo weight gap skew results sChars (r1 + 1) n newRow with
        | Except.error e => Except.error e
        | Except.ok rs => Except.ok (newRow :: rs)) = Except.error e := h
      cases hgo : buildRowsGo weight gap skew results sChars (r1 + 1) n newRow with
      | error e2 =>
        rw [hgo] at h2
        simp at h2
        subst h2
        exact ih (r1 + 1) newRow e2 hgo
      | ok rs => rw [hgo] at h2; simp at h2

theorem buildGrid_error (weight : List (U32Str × ℚ)) (gap skew : ℚ)
    (results : List U32Str) (sChars : List Char) (e : CppError)
    (h : buildGrid weight gap skew results sChars = Except.error e) :
    ∃ x y, e = CppError.invalidArgument (missingMsg (canonKey x y)) ∧
      List.lookup (canonKey x y) weight = Option.none := by
  rw [buildGrid] at h
  cases hgo : buildRowsGo weight gap skew results sChars 0 (nthD results 0 []).length
      (topRow gap skew sChars.length) with
  | error e2 =>
    rw [hgo] at h
    simp at h
    subst h
    exact buildRowsGo_error weight gap skew results sChars _ _ _ e2 hgo
  | ok rs => rw [hgo] at h; simp at h

theorem foldRound_error (weight : List (U32Str × ℚ)) (gap skew : ℚ)
    (results : List U32Str) (sChars : U32Str) (e : CppError)
    (h : foldRound weight gap skew results sChars = Except.error e) :
    ∃ x y, e = CppError.invalidArgument (missingMsg (canonKey x y)) ∧
      List.lookup (canonKey x y) weight = Option.none := by
  simp only [foldRound] at h
  cases hbg : buildGrid weight gap skew results sChars with
  | error e2 =>
    rw [hbg] at h
    simp at h
    subst h
    exact buildGrid_error weight gap skew results sChars e2 hbg
  | ok g =>
    rw [hbg] at h
    have h2 : (match traceGo g results sChars ((nthD results 0 []).length + sChars.length + 1)
        (nthD results 0 []).length sChars.length (results.map (fun _ => [])) [] with
      | Option.none => Except.error CppError.nonTermination
      | Option.some (fRows, fStr) => Except.ok ((fRows ++ [fStr]).map List.reverse)) =
        Except.error e := h
    obtain ⟨fR, fS, htr⟩ := traceGo_ok g results sChars (nthD results 0 []).length
      sChars.length (buildGrid_good weight gap skew results sChars g hbg)
      ((nthD results 0 []).length + sChars.length + 1) (nthD results 0 []).length
      sChars.length (results.map (fun _ => [])) [] (Nat.le_refl _) (Nat.le_refl _)
      (Nat.le_refl _)
    rw [htr] at h2
    simp at h2

theorem alignFold_error (weight : List (U32Str × ℚ)) (gap skew : ℚ) :
    ∀ (rest : List U32Str) (results : List U32Str) (e : CppError),
      alignFold weight gap skew results rest = Except.error e →
      ∃ x y, e = CppError.invalidArgument (missingMsg (canonKey x y)) ∧
        List.lookup (canonKey x y) weight = Option.none := by
  intro rest
  induction rest with
  | nil => intro results e h; simp [alignFold] at h
  | cons s rest2 ih =>
    intro results e h
    rw [alignFold] at h
    cases hfr : foldRound weight gap skew results s with
    | error e2 =>
      rw [hfr] at h
      simp at h
      subst h
      exact foldRound_error weight gap skew results s e2 hfr
    | ok results2 =>
      rw [hfr] at h
      exact ih results2 e h

/- The claim theorems about align_all. -/

/-- Claim C3: in every interior cell of the grid, the three candidate scores
are computed from the up, left and diagonal neighbor cells, the stored value
is their maximum, and the stored direction tests equality against the diagonal
candidate first, then the vertical candidate, then falls back to left — so on
exact ties diagonal is preferred over up, and up over left. -/
theorem trace_cell_direction_tiebreak (weight : List (U32Str × ℚ)) (gap skew : ℚ)
    (results : List U32Str) (sChars : List Char) (g : List (List Trace)) (r c : Nat) (q : ℚ)
    (hg : buildGrid weight gap skew results sChars = Except.ok g)
    (hr1 : 1 ≤ r) (hr2 : r ≤ (nthD results 0 []).length)
    (hc1 : 1 ≤ c) (hc2 : c ≤ sChars.length)
    (hq : bestSub weight (nthD sChars (c - 1) gap_char) (colChars results (r - 1))
      floatLowest = Except.ok q) :
    (gridAt g r c).up = max ((gridAt g (r - 1) c).up + skew) ((gridAt g (r - 1) c).val + gap) ∧
    (gridAt g r c).left =
      max ((gridAt g r (c - 1)).left + skew) ((gridAt g r (c - 1)).val + gap) ∧
    (gridAt g r c).val = max (q + (gridAt g (r - 1) (c - 1)).val)
      (max (gridAt g r c).up (gridAt g r c).left) ∧
    (gridAt g r c).dir = (if (gridAt g r c).val = q + (gridAt g (r - 1) (c - 1)).val
      then TraceDir.diag
      else if (gridAt g r c).val = (gridAt g r c).up then TraceDir.up else TraceDir.left) := by
  have hmk := buildGrid_interior weight gap skew results sChars g hg r c hr1 hr2 hc1 hc2
  exact mkCell_fields weight gap skew (colChars results (r - 1))
    (nthD sChars (c - 1) gap_char) (gridAt g (r - 1) c) (gridAt g r (c - 1))
    (gridAt g (r - 1) (c - 1)) (gridAt g r c) q hmk hq

/-- Witness for claim C3 at the concrete 2 by 2 grid c3g. -/
theorem trace_cell_direction_tiebreak_witness :
    buildGrid c3Weight (-2) (-1) [['A']] ['A'] = Except.ok c3g ∧
    ((gridAt c3g 1 1).up = max ((gridAt c3g 0 1).up + (-1)) ((gridAt c3g 0 1).val + (-2)) ∧
     (gridAt c3g 1 1).left =
       max ((gridAt c3g 1 0).left + (-1)) ((gridAt c3g 1 0).val + (-2)) ∧
     (gridAt c3g 1 1).val = max (0 + (gridAt c3g 0 0).val)
       (max (gridAt c3g 1 1).up (gridAt c3g 1 1).left) ∧
     (gridAt c3g 1 1).dir = (if (gridAt c3g 1 1).val = 0 + (gridAt c3g 0 0).val
       then TraceDir.diag
       else if (gridAt c3g 1 1).val = (gridAt c3g 1 1).up
       then TraceDir.up else TraceDir.left)) :=
  ⟨by with_unfolding_all decide,
   trace_cell_direction_tiebreak c3Weight (-2) (-1) [['A']] ['A'] c3g 1 1 0
     (by with_unfolding_all decide) (by decide) (by decide) (by decide) (by decide)
     (by with_unfolding_all decide)⟩

/-- Claim C1 (amended): whenever align_all returns normally, all returned rows
have equal length; and provided no input string contains the gap marker, every
column of the returned alignment shows at least one non-gap character.  The
restriction on the inputs is forced by the counterexample below: the claim as
frozen quantifies over all inputs, but an input that itself contains the gap
marker can produce an all-gap column. -/
theorem align_all_rows_equal_and_columns_nongap (strings : List U32Str)
    (weight : List (U32Str × ℚ)) (gap skew : ℚ) (res : List U32Str)
    (h : align_all strings weight gap skew = Except.ok res) :
    (∀ row1 ∈ res, ∀ row2 ∈ res, row1.length = row2.length) ∧
    ((∀ s ∈ strings, gap_char ∉ s) →
      ∀ j, j < (nthD res 0 []).length →
        ∃ k, k < res.length ∧ nthD (nthD res k []) j gap_char ≠ gap_char) := by
  cases strings with
  | nil => simp [align_all] at h
  | cons s0 rest =>
    rw [align_all] at h
    have hne : ([s0] : List U32Str) ≠ [] := by simp
    have heq : EqLen [s0] := by
      intro row hrow
      simp at hrow
      subst hrow
      rfl
    obtain ⟨hne2, heq2, hlen2, hmap2⟩ := alignFold_shape weight gap skew rest [s0] res h hne heq
    constructor
    · intro row1 h1 row2 h2
      rw [heq2 row1 h1, heq2 row2 h2]
    · intro hfree j hj
      have hcv : ColsCovered [s0] := by
        intro j2 hj2
        refine ⟨0, by simp, ?_⟩
        simp only [nthD_cons_zero] at hj2 ⊢
        intro hcontra
        exact (hfree s0 (by simp)) (hcontra ▸ nthD_mem s0 j2 gap_char hj2)
      exact alignFold_cols weight gap skew rest [s0] res h hne heq hcv
        (fun t ht => hfree t (by simp [ht])) j hj

/-- Counterexample for claim C1 as frozen: with an input string that contains
the gap marker, align_all returns an alignment whose column 1 is the gap
marker in every row, although the input list is not empty.  The run: folding
the second string A-gap against the single row A takes a diagonal step on the
matching A and then a left step that emits the literal gap character of the
input, so the final column holds gaps only. -/
theorem align_all_gap_input_allgap_column :
    align_all [['A'], ['A', '⋄']] [(['A', 'A'], 0), (['A', '⋄'], -1)] (-2) (-1) =
      Except.ok [['A', '⋄'], ['A', '⋄']] ∧
    nthD (nthD ([['A', '⋄'], ['A', '⋄']] : List U32Str) 0 []) 1 gap_char = gap_char ∧
    nthD (nthD ([['A', '⋄'], ['A', '⋄']] : List U32Str) 1 []) 1 gap_char = gap_char ∧
    ([['A', '⋄'], ['A', '⋄']] : List U32Str).length = 2 :=
  ⟨by with_unfolding_all decide, rfl, rfl, rfl⟩

/-- Witness for claim C1 (amended) at a one-string input. -/
theorem align_all_rows_equal_and_columns_nongap_witness :
    (∀ row1 ∈ ([['A', 'B']] : List U32Str), ∀ row2 ∈ ([['A', 'B']] : List U32Str),
      row1.length = row2.length) ∧
    ((∀ s ∈ ([['A', 'B']] : List U32Str), gap_char ∉ s) →
      ∀ j, j < (nthD ([['A', 'B']] : List U32Str) 0 []).length →
        ∃ k, k < ([['A', 'B']] : List U32Str).length ∧
          nthD (nthD ([['A', 'B']] : List U32Str) k []) j gap_char ≠ gap_char) :=
  align_all_rows_equal_and_columns_nongap [['A', 'B']] [] 0 0 [['A', 'B']] rfl

/-- Claim C9: when no input string contains the gap marker and align_all
returns normally, the output has one row per input string, in input order, and
deleting every gap marker from row k recovers the k-th input string. -/
theorem align_all_strip_gaps_recovers_inputs (strings : List U32Str)
    (weight : List (U32Str × ℚ)) (gap skew : ℚ) (res : List U32Str)
    (hfree : ∀ s ∈ strings, gap_char ∉ s)
    (h : align_all strings weight gap skew = Except.ok res) :
    res.length = strings.length ∧
    ∀ k, k < strings.length → stripGaps (nthD res k []) = nthD strings k [] := by
  cases strings with
  | nil => simp [align_all] at h
  | cons s0 rest =>
    rw [align_all] at h
    have hne : ([s0] : List U32Str) ≠ [] := by simp
    have heq : EqLen [s0] := by
      intro row hrow
      simp at hrow
      subst hrow
      rfl
    obtain ⟨hne2, heq2, hlen2, hmap2⟩ := alignFold_shape weight gap skew rest [s0] res h hne heq
    have hlen3 : res.length = (s0 :: rest).length := by
      simp at hlen2 ⊢
      omega
    refine ⟨hlen3, ?_⟩
    intro k hk
    have h1 : nthD (res.map stripGaps) k [] = nthD (([s0] ++ rest).map stripGaps) k [] := by
      rw [hmap2]
    rw [nthD_map_bounded stripGaps res k [] [] (by rw [hlen3]; simpa using hk)] at h1
    rw [nthD_map_bounded stripGaps ([s0] ++ rest) k [] [] (by simpa using hk)] at h1
    have h2 : ([s0] ++ rest : List U32Str) = s0 :: rest := rfl
    rw [h2] at h1
    rw [h1]
    exact stripGaps_of_not_mem _
      (hfree (nthD (s0 :: rest) k []) (nthD_mem (s0 :: rest) k [] (by simpa using hk)))

/-- Witness for claim C9 at the concrete scenario of the spec. -/
theorem align_all_strip_gaps_recovers_inputs_witness :
    ([['A', '⋄', 'C'], ['A', 'G', 'C']] : List U32Str).length = exStrings.length ∧
    (∀ k, k < exStrings.length →
      stripGaps (nthD ([['A', '⋄', 'C'], ['A', 'G', 'C']] : List U32Str) k []) =
        nthD exStrings k []) :=
  align_all_strip_gaps_recovers_inputs exStrings exWeight (-2) (-1)
    [['A', '⋄', 'C'], ['A', 'G', 'C']] (by decide) (by with_unfolding_all decide)

/-- Claim C10: align_all always terminates.  The traceback loop is modeled
with explicit fuel rows + cols + 1, and every call to align_all either
returns an alignment or raises the invalid_argument exception: the fuel is
never exhausted, because the boundary directions point up in column 0 and
left in row 0, interior directions are never none, and every followed step
strictly decreases the sum of the row and column indices, so the walk from
(rows, cols) reaches the terminal cell (0, 0) in at most rows + cols steps. -/
theorem align_all_never_exhausts_traceback_fuel (strings : List U32Str)
    (weight : List (U32Str × ℚ)) (gap skew : ℚ) :
    (∃ res, align_all strings weight gap skew = Except.ok res) ∨
    (∃ msg, align_all strings weight gap skew = Except.error (CppError.invalidArgument msg)) := by
  cases strings with
  | nil =>
    right
    exact ⟨emptyMsg, rfl⟩
  | cons s0 rest =>
    cases hal : alignFold weight gap skew [s0] rest with
    | ok res =>
      left
      refine ⟨res, ?_⟩
      rw [align_all]
      exact hal
    | error e =>
      right
      obtain ⟨x, y, he, hlk⟩ := alignFold_error weight gap skew rest [s0] e hal
      refine ⟨missingMsg (canonKey x y), ?_⟩
      rw [align_all, hal, he]

/-- Claim C6 (amended): both failure paths of align_all raise the same
exception type, std::invalid_argument, modeled by the single constructor
CppError.invalidArgument: the empty input list raises it with the fixed
message of line 159, and a missing substitution score raises it with the
message naming the absent canonical key.  No partial alignment accompanies an
error (the return is either ok or error).  The claim as frozen asserts a
distinct MissingSubstitutionScore error kind and that InvalidArgument is
raised exactly on empty input; the counterexample below refutes that. -/
theorem align_all_error_surface_amended (strings : List U32Str)
    (weight : List (U32Str × ℚ)) (gap skew : ℚ) :
    align_all [] weight gap skew = Except.error (CppError.invalidArgument emptyMsg) ∧
    (∀ e, align_all strings weight gap skew = Except.error e →
      (strings = [] ∧ e = CppError.invalidArgument emptyMsg) ∨
      (∃ x y, e = CppError.invalidArgument (missingMsg (canonKey x y)) ∧
        List.lookup (canonKey x y) weight = Option.none)) := by
  refine ⟨rfl, ?_⟩
  intro e he
  cases strings with
  | nil =>
    left
    rw [align_all] at he
    simp at he
    exact ⟨rfl, he.symm⟩
  | cons s0 rest =>
    right
    rw [align_all] at he
    exact alignFold_error weight gap skew rest [s0] e he

/-- Counterexample for claim C6 as frozen: a non-empty input raises the very
same invalid_argument exception kind when a substitution score is missing, so
InvalidArgument is not raised exactly on empty input and the missing-score
failure is not a distinct error kind; it is distinguished only by its message,
which does carry the offending canonical pair. -/
theorem align_all_nonempty_invalid_argument :
    align_all [['A'], ['B']] [] (-2) (-1) =
      Except.error (CppError.invalidArgument (missingMsg ['A', 'B'])) ∧
    ([['A'], ['B']] : List U32Str).length = 2 ∧
    missingMsg ['A', 'B'] ≠ emptyMsg :=
  ⟨by with_unfolding_all decide, rfl, by decide⟩

end StringAlign
